import Mathlib

/-!
Verification development for the mpenc_js core: the causally-ordered
transcript (`src/mpenc/impl/transcript.js`), the authenticated signature
key exchange (`src/ske.js`) and the default message log.

Modelling conventions, shared by every definition below:

* JavaScript `Map` objects become association lists `List (String × β)`;
  `Map.set` is `mset` (replace-or-insert, lookup-compatible), `Map.get`
  is `List.lookup`.
* `ImmutableSet` values become `List String` used with set semantics
  (`contains`, `filter`); `toArray` of a set built from a list is the
  first-occurrence deduplication `dedupKeep`.
* Nullable JavaScript values become `Option`.
* A thrown JavaScript exception becomes `Except.error` (for operations
  whose failure a claim observes) or, inside the total order `le`, the
  value `false`: the source can only throw there on states that are not
  reachable through `add`, and every theorem below applies `le` to
  accepted messages only, where each `safeGet`/`Map.get` succeeds.
* Exception message strings keep the constant prefix of the source
  message; the interpolated parts (`btoa(mId)` etc.) are dropped.
-/

namespace Mpenc

/-- Replace-or-insert into an association list, modelling `Map.set`:
`lookup k` afterwards yields `v`, every other key is unchanged, and the
list keeps one entry per key. -/
def mset {β : Type} (l : List (String × β)) (k : String) (v : β) :
    List (String × β) :=
  (k, v) :: l.filter (fun e => !(e.1 == k))

/-- First-occurrence deduplication: the iteration order of an ES6 `Set`
built from a list (insertion order, duplicates skipped). -/
def dedupKeep {α : Type} [BEq α] (l : List α) : List α :=
  l.foldl (fun acc x => if acc.contains x then acc else acc ++ [x]) []

/-- A transcript message (`mpenc/message.Message`): `mId`/`author` are
nullable in the source, `parents` and `readers` are `ImmutableSet`s. -/
structure Message where
  mId : Option String
  author : Option String
  parents : List String
  readers : List String
deriving DecidableEq, Repr

/-- `Message.members()` from the source: `{author} ∪ readers`, as the
membership test the transcript needs. -/
def Message.membersContain (m : Message) (u : String) : Bool :=
  m.author == some u || m.readers.contains u

/-- The state of a `BaseTranscript`, one field per mutable field of the
source constructor (caches `_cacheBy`/`_cacheUnacked` are transparent
memoisation and are not part of the state). -/
structure Transcript where
  uIds : List String
  messages : List (String × Message)
  minMessages : List String
  maxMessages : List String
  successors : List (String × List String)
  length : Nat
  messageIndex : List (String × Nat)
  log : List String
  authorMessages : List (String × List String)
  authorIndex : List (String × Nat)
  context : List (String × List (String × Option String))
  unackby : List (String × List String)
  unacked : List String
  fubar : Bool
deriving DecidableEq, Repr

/-- The fresh transcript built by the `BaseTranscript` constructor. -/
def Transcript.empty : Transcript :=
  ⟨[], [], [], [], [], 0, [], [], [], [], [], [], [], false⟩

def Transcript.msg? (t : Transcript) (m : String) : Option Message :=
  t.messages.lookup m

/-- `BaseTranscript.author`: the author of an accepted message. -/
def Transcript.authorOf (t : Transcript) (m : String) : Option String :=
  (t.msg? m).bind Message.author

def Transcript.idx? (t : Transcript) (m : String) : Option Nat :=
  t.messageIndex.lookup m

def Transcript.aIdx? (t : Transcript) (m : String) : Option Nat :=
  t.authorIndex.lookup m

def Transcript.ctx? (t : Transcript) (m : String) :
    Option (List (String × Option String)) :=
  t.context.lookup m

/-- JavaScript `a <= b` on two possibly-`undefined` numbers: `false`
whenever either side is missing. -/
def optLe : Option Nat → Option Nat → Bool
  | some a, some b => a ≤ b
  | _, _ => false

/-- JavaScript `a > b` on two possibly-`undefined` numbers. -/
def optGt : Option Nat → Option Nat → Bool
  | some a, some b => b < a
  | _, _ => false

/-- `BaseTranscript.le` with explicit fuel for the recursion of
`_le_expensive` through parents; `Transcript.le` supplies enough fuel
for every state reachable through `add`, where each recursive step
strictly decreases the accept index. -/
def leFuel (t : Transcript) : Nat → String → String → Bool
  | 0, _, _ => false
  | fuel + 1, m0, m1 =>
    if m0 == m1 then true
    else
      match t.msg? m0, t.msg? m1 with
      | some mm0, some mm1 =>
        match mm0.author, mm1.author with
        | some u0, some u1 =>
          if u0 == u1 then optLe (t.aIdx? m0) (t.aIdx? m1)
          else if mm1.readers.contains u0 then
            match t.ctx? m1 with
            | some ctx =>
              match ctx.lookup u0 with
              | some (some p0) => optLe (t.aIdx? m0) (t.aIdx? p0)
              | _ => false
            | none => false
          else if optGt (t.idx? m0) (t.idx? m1) then false
          else mm1.parents.any (fun p => leFuel t fuel m0 p)
        | _, _ => false
      | _, _ => false

/-- `BaseTranscript.le`, the causal partial order on accepted messages. -/
def Transcript.le (t : Transcript) (m0 m1 : String) : Bool :=
  leFuel t (t.length + 1) m0 m1

/-- `BaseTranscript.ge`. -/
def Transcript.ge (t : Transcript) (m0 m1 : String) : Bool :=
  t.le m1 m0

/-- One entry-merge step of `_mergeContext`: keep the greater of the
stored and the incoming latest-message entry, as the source's
`!context.has(u) || context.get(u) === null || (um !== null && ge um cur)`. -/
def ctxUpdate (t : Transcript) (acc : List (String × Option String))
    (e : String × Option String) : List (String × Option String) :=
  match acc.lookup e.1 with
  | none => mset acc e.1 e.2
  | some none => mset acc e.1 e.2
  | some (some c) =>
    match e.2 with
    | none => acc
    | some umv => if t.ge umv c then mset acc e.1 e.2 else acc

/-- `BaseTranscript._mergeContext`: merge the parents' context maps,
overlay `author(p) ↦ p` for each parent `p`, give every reader a
(possibly `null`) entry, and restrict the domain to the readers. -/
def mergeContext (t : Transcript) (pmIdArr ruId : List String) :
    List (String × Option String) :=
  let c1 := pmIdArr.foldl
    (fun acc p => ((t.ctx? p).getD []).foldl (ctxUpdate t) acc) []
  let c2 := pmIdArr.foldl
    (fun acc p =>
      match t.authorOf p with
      | some au => mset acc au (some p)
      | none => acc) c1
  let c3 := ruId.foldl
    (fun acc u => if (acc.lookup u).isSome then acc else mset acc u none) c2
  c3.filter (fun e => ruId.contains e.1)

/-- Modelled from the spec: `mpenc/helper/graph.createMerger` (the file
`mpenc/helper/graph.js` is not part of the sources). Per the source
comment in `add`, "merging the members checks they are in different
chains": the merge fails when two distinct parents are causally
ordered; otherwise it returns the union of the parents' member sets.
The spec's additional detection of causally-unordered membership
conflicts is not modelled; no claim below depends on it. -/
def mergeMembers (t : Transcript) (pmIdArr : List String) :
    Option (List String) :=
  if pmIdArr.any (fun a => pmIdArr.any (fun b => !(a == b) && t.le a b)) then
    none
  else
    some (dedupKeep (pmIdArr.foldl
      (fun acc p =>
        acc ++ ((t.msg? p).elim [] (fun mm =>
          (mm.author.elim [] (fun u => [u])) ++ mm.readers))) []))

/-- One expansion step of the ancestor walk: append, to the visited
list, every parent of a visited node that satisfies the predicate. -/
def ancStep (t : Transcript) (pred : String → Bool) (cur : List String) :
    List String :=
  cur.foldl
    (fun acc m =>
      ((t.msg? m).elim [] Message.parents).foldl
        (fun acc2 p =>
          if pred p && !(acc2.contains p) then acc2 ++ [p] else acc2) acc)
    cur

def ancIter (t : Transcript) (pred : String → Bool) :
    Nat → List String → List String
  | 0, cur => cur
  | n + 1, cur => ancIter t pred n (ancStep t pred cur)

/-- Modelled from the spec: `CausalOrder.iterAncestors` as `add` uses it
(the file `mpenc/helper/graph.js` is not part of the sources): the
ancestors of the starting set reachable through nodes satisfying the
predicate, the starting nodes included when they satisfy it.  Iterating
the expansion `length` times reaches the fixpoint on every state
reachable through `add`. -/
def ancestorsThrough (t : Transcript) (init : List String)
    (pred : String → Bool) : List String :=
  ancIter t pred t.length (dedupKeep (init.filter pred))

/-- `BaseTranscript._sortMIds`: sort message ids by accept index (the
comparator is only ever applied to accepted ids, where the index lookup
succeeds; a missing index is read as 0 here). -/
def sortMIds (idx : List (String × Nat)) (mIds : List String) : List String :=
  List.insertionSort
    (fun a b => (idx.lookup a).getD 0 ≤ (idx.lookup b).getD 0) mIds

/-- The validation phase of `BaseTranscript.add`: the first failing
check's error, in the source's order, or `none` when every check and
the member merge pass.  Every check only reads the state. -/
def addChecks (t : Transcript) (msg : Message) : Option String :=
  if t.fubar then
    some "something horrible happened previously, refusing all operations"
  else
    match msg.mId with
    | none => some "invalid mId: null"
    | some mId =>
      if msg.parents.contains mId then some "message references itself"
      else if (t.msg? mId).isSome then some "message already added"
      else
        match msg.author with
        | none => some "invalid uId: null"
        | some uId =>
          let pmIdArr := dedupKeep msg.parents
          if msg.readers.contains uId then some "message sent to self"
          -- an empty reader set only logs a warning in the source
          else if !(pmIdArr.filter (fun p => (t.msg? p).isNone)).isEmpty then
            some "parents not found"
          else if !(pmIdArr.filter
              (fun p => !((t.msg? p).elim false
                (fun mm => mm.membersContain uId)))).isEmpty then
            some "secret parents referenced"
          else if (dedupKeep (pmIdArr.map t.authorOf)).length <
              pmIdArr.length then
            some "redundant parents: not from distinct authors"
          else
            match (t.authorMessages.lookup uId).bind List.getLast? with
            | some pum =>
              if !(pmIdArr.any (fun m => t.le pum m)) then
                some "does not reference prev-sent"
              else
                match mergeMembers t pmIdArr with
                | none => some "merge failed"
                | some _ => none
            | none =>
              match mergeMembers t pmIdArr with
              | none => some "merge failed"
              | some _ => none

/-- The commit phase of `BaseTranscript.add`, reached only after every
check passed: the updated state paired with the newly fully-acked ids,
sorted by accept index. -/
def addCommit (t : Transcript) (msg : Message) (mId uId : String) :
    Transcript × List String :=
  let pmIdArr := dedupKeep msg.parents
  let ruId := msg.readers
  let context := mergeContext t pmIdArr ruId
  let messageIndex' := mset t.messageIndex mId t.length
  let unackby₁ := mset t.unackby mId ruId
  let pred := fun m => ((unackby₁.lookup m).getD []).contains uId
  let anc := ancestorsThrough t pmIdArr pred
  let acked := (if ruId.isEmpty then [mId] else []) ++
    anc.filter (fun am =>
      (((unackby₁.lookup am).getD []).filter (fun r => !(r == uId))).isEmpty)
  let unackby₂ := anc.foldl
    (fun acc am =>
      mset acc am (((acc.lookup am).getD []).filter (fun r => !(r == uId))))
    unackby₁
  let t' : Transcript :=
    { uIds := if t.uIds.contains uId then t.uIds else t.uIds ++ [uId]
      messages := mset t.messages mId msg
      minMessages :=
        if pmIdArr.isEmpty then t.minMessages ++ [mId] else t.minMessages
      maxMessages :=
        (dedupKeep (t.maxMessages ++ [mId])).filter
          (fun x => !(pmIdArr.contains x))
      successors := mset
        (pmIdArr.foldl
          (fun acc p => mset acc p (((acc.lookup p).getD []) ++ [mId]))
          t.successors)
        mId []
      length := t.length + 1
      messageIndex := messageIndex'
      log := t.log ++ [mId]
      authorMessages := mset t.authorMessages uId
        (((t.authorMessages.lookup uId).getD []) ++ [mId])
      authorIndex := mset t.authorIndex mId
        ((t.authorMessages.lookup uId).getD []).length
      context := mset t.context mId context
      unackby := unackby₂
      unacked := (dedupKeep (t.unacked ++ [mId])).filter
        (fun x => !(acked.contains x))
      fubar := t.fubar }
  (t', sortMIds messageIndex' acked)

/-- `BaseTranscript.add`: validation first (any failure leaves the state
untouched), then the commit.  The pair carries the state the caller
holds afterwards together with the result or the thrown error. -/
def Transcript.add (t : Transcript) (msg : Message) :
    Transcript × Except String (List String) :=
  match addChecks t msg with
  | some e => (t, .error e)
  | none =>
    match msg.mId, msg.author with
    | some mId, some uId =>
      let r := addCommit t msg mId uId
      (r.1, .ok r.2)
    | _, _ => (t, .error "unreachable")

/-- `BaseTranscript.size`. -/
def Transcript.size (t : Transcript) : Nat := t.length

/-- `BaseTranscript.all`. -/
def Transcript.all (t : Transcript) : List String := t.log

/-- `BaseTranscript.has`. -/
def Transcript.hasM (t : Transcript) (m : String) : Bool :=
  (t.msg? m).isSome

/-- `BaseTranscript.min`. -/
def Transcript.minM (t : Transcript) : List String := t.minMessages

/-- `BaseTranscript.max`. -/
def Transcript.maxM (t : Transcript) : List String := t.maxMessages

/-- `BaseTranscript.pre` (`safeGet` failure becomes `none`). -/
def Transcript.pre (t : Transcript) (m : String) : Option (List String) :=
  (t.msg? m).map Message.parents

/-- `BaseTranscript.suc` (`safeGet` failure becomes `none`). -/
def Transcript.suc (t : Transcript) (m : String) : Option (List String) :=
  t.successors.lookup m

/-- `BaseTranscript.by` (the `_cacheBy` cache is transparent). -/
def Transcript.byM (t : Transcript) (u : String) : Option (List String) :=
  t.authorMessages.lookup u

/-- `BaseTranscript.get`. -/
def Transcript.getM (t : Transcript) (m : String) : Option Message :=
  t.msg? m

/-- `BaseTranscript.unackby`. -/
def Transcript.unackbyM (t : Transcript) (m : String) :
    Option (List String) :=
  t.unackby.lookup m

/-- `BaseTranscript.unacked` (the `_cacheUnacked` cache is transparent). -/
def Transcript.unackedM (t : Transcript) : List String :=
  sortMIds t.messageIndex t.unacked

/-- The transcript states reachable through successful `add` calls on a
fresh `BaseTranscript`. -/
inductive Reachable : Transcript → Prop
  | empty : Reachable Transcript.empty
  | step {t : Transcript} (msg : Message) : Reachable t →
      (t.add msg).2.isOk = true → Reachable (t.add msg).1

theorem lookup_filter_ne {β : Type} (l : List (String × β)) (k k' : String)
    (h : k' ≠ k) :
    (l.filter (fun e => !(e.1 == k))).lookup k' = l.lookup k' := by
  induction l with
  | nil => rfl
  | cons a rest ih =>
    by_cases ha : a.1 = k
    · have : (a.1 == k) = true := by simp [ha]
      simp [List.filter, this, ih, List.lookup]
      have : (k' == a.1) = false := by simp [ha, h]
      simp [this]
    · have : (a.1 == k) = false := by simp [ha]
      simp [List.filter, this, List.lookup]
      cases hk : (k' == a.1) <;> simp [ih]

theorem lookup_mset {β : Type} (l : List (String × β)) (k k' : String) (v : β) :
    (mset l k v).lookup k' = if k' = k then some v else l.lookup k' := by
  unfold mset
  by_cases h : k' = k
  · subst h; simp [List.lookup]
  · have hb : (k' == k) = false := by simp [h]
    simp [List.lookup, hb, h, lookup_filter_ne l k k' h]

theorem mem_dedupKeep {α : Type} [BEq α] [LawfulBEq α] (l : List α) (x : α) :
    x ∈ dedupKeep l ↔ x ∈ l := by
  unfold dedupKeep
  suffices h : ∀ acc : List α,
      x ∈ l.foldl (fun acc y => if acc.contains y then acc else acc ++ [y]) acc
        ↔ x ∈ acc ∨ x ∈ l by
    simpa using h []
  induction l with
  | nil => simp
  | cons a rest ih =>
    intro acc
    simp only [List.foldl_cons]
    by_cases hc : acc.contains a
    · rw [if_pos hc, ih]
      constructor
      · rintro (h | h)
        · exact Or.inl h
        · exact Or.inr (List.mem_cons_of_mem _ h)
      · rintro (h | h)
        · exact Or.inl h
        · rcases List.mem_cons.1 h with rfl | h
          · exact Or.inl (by simpa using hc)
          · exact Or.inr h
    · rw [if_neg hc, ih]
      constructor
      · rintro (h | h)
        · rcases List.mem_append.1 h with h | h
          · exact Or.inl h
          · simp at h; subst h; exact Or.inr (List.mem_cons_self _ _)
        · exact Or.inr (List.mem_cons_of_mem _ h)
      · rintro (h | h)
        · exact Or.inl (List.mem_append.2 (Or.inl h))
        · rcases List.mem_cons.1 h with rfl | h
          · exact Or.inl (List.mem_append.2 (Or.inr (by simp)))
          · exact Or.inr h

/-- The invariants of a transcript state that the causal-order theorems
rest on; `Reachable` states satisfy all of them. -/
structure WF (t : Transcript) : Prop where
  len_eq : t.length = t.log.length
  log_idx : ∀ (m : String) (k : Nat), t.idx? m = some k → t.log[k]? = some m
  msg_idx : ∀ m, (t.msg? m).isSome ↔ (t.idx? m).isSome
  author_list : ∀ u lst, t.authorMessages.lookup u = some lst →
    ∀ (i : Nat) (m : String), lst[i]? = some m → t.aIdx? m = some i ∧ t.authorOf m = some u
  aIdx_author : ∀ (m : String) (i : Nat), t.aIdx? m = some i →
    ∃ u lst, t.authorOf m = some u ∧ t.authorMessages.lookup u = some lst ∧
      lst[i]? = some m
  author_mono : ∀ u lst, t.authorMessages.lookup u = some lst →
    ∀ (i j : Nat) (mi mj : String), i ≤ j → lst[i]? = some mi → lst[j]? = some mj →
      ∃ ki kj, t.idx? mi = some ki ∧ t.idx? mj = some kj ∧ ki ≤ kj
  parents_wf : ∀ m mm, t.msg? m = some mm → ∀ p ∈ mm.parents,
    (t.msg? p).isSome ∧
    ∃ kp km, t.idx? p = some kp ∧ t.idx? m = some km ∧ kp < km
  ctx_wf : ∀ m ctx, t.ctx? m = some ctx → ∀ u p, (u, some p) ∈ ctx →
    t.authorOf p = some u ∧
    ∃ kp km, t.idx? p = some kp ∧ t.idx? m = some km ∧ kp < km
  unackby_dom : ∀ m, (t.msg? m).isSome → (t.unackby.lookup m).isSome

theorem WF.idx_lt_length {t : Transcript} (w : WF t) {m : String} {k : Nat}
    (h : t.idx? m = some k) : k < t.length := by
  have hl := w.log_idx m k h
  have : k < t.log.length := by
    by_contra hk
    simp [List.getElem?_eq_none (Nat.le_of_not_lt hk)] at hl
  have hlen := w.len_eq
  omega

theorem wf_empty : WF Transcript.empty := by
  constructor <;>
    simp [Transcript.empty, Transcript.msg?, Transcript.idx?, Transcript.aIdx?,
      Transcript.ctx?, Transcript.authorOf, List.lookup]

theorem add_error_fst_eq (t : Transcript) (msg : Message) (e : String)
    (h : (t.add msg).2 = Except.error e) : (t.add msg).1 = t := by
  unfold Transcript.add at h ⊢
  cases hc : addChecks t msg with
  | some e' => simp
  | none =>
    rw [hc] at h
    rcases hm : msg.mId with _ | mId <;> rcases ha : msg.author with _ | uId <;>
        simp_all

/-- C1: whenever `add` fails — any validation check, including the
parent-membership merge — the thrown error leaves the transcript state,
and with it every observable (`size`, `all`, `min`, `max`, `pre`, `suc`,
`by`, `unackby`, `unacked`, the context map), exactly as it was. -/
theorem claim_C1_invalid_add_preserves_state (t : Transcript) (msg : Message)
    (e : String) (h : (t.add msg).2 = Except.error e) :
    (t.add msg).1 = t ∧
    (t.add msg).1.size = t.size ∧ (t.add msg).1.all = t.all ∧
    (t.add msg).1.minM = t.minM ∧ (t.add msg).1.maxM = t.maxM ∧
    (∀ m, (t.add msg).1.pre m = t.pre m) ∧
    (∀ m, (t.add msg).1.suc m = t.suc m) ∧
    (∀ u, (t.add msg).1.byM u = t.byM u) ∧
    (∀ m, (t.add msg).1.unackbyM m = t.unackbyM m) ∧
    (t.add msg).1.unackedM = t.unackedM ∧
    (∀ m, (t.add msg).1.ctx? m = t.ctx? m) := by
  have h1 := add_error_fst_eq t msg e h
  rw [h1]
  exact ⟨rfl, rfl, rfl, rfl, rfl, fun _ => rfl, fun _ => rfl, fun _ => rfl,
    fun _ => rfl, rfl, fun _ => rfl⟩

/-- Witness for C1 at a concrete invalid input (a `null` message id). -/
theorem claim_C1_witness :
    (Transcript.empty.add ⟨none, some "A", [], []⟩).1 = Transcript.empty :=
  (claim_C1_invalid_add_preserves_state Transcript.empty
    ⟨none, some "A", [], []⟩ "invalid mId: null" rfl).1

/-- Replace only the `_fubar` flag of a transcript state. -/
def setFubar (t : Transcript) (b : Bool) : Transcript := { t with fubar := b }

theorem leFuel_congr (t t' : Transcript)
    (hm : t'.messages = t.messages) (ha : t'.authorIndex = t.authorIndex)
    (hi : t'.messageIndex = t.messageIndex) (hc : t'.context = t.context) :
    ∀ (fuel : Nat) (m0 m1 : String),
      leFuel t' fuel m0 m1 = leFuel t fuel m0 m1 := by
  intro fuel
  induction fuel with
  | zero => intro m0 m1; rfl
  | succ n ih =>
    intro m0 m1
    simp only [leFuel, Transcript.msg?, Transcript.aIdx?, Transcript.idx?,
      Transcript.ctx?, hm, ha, hi, hc]
    simp [ih]

theorem leFuel_setFubar (t : Transcript) (b : Bool) :
    ∀ (fuel : Nat) (m0 m1 : String),
      leFuel (setFubar t b) fuel m0 m1 = leFuel t fuel m0 m1 :=
  leFuel_congr t (setFubar t b) rfl rfl rfl rfl

/-- C5 (corrected): after the transcript is poisoned (`_fubar` set), only
`add` refuses to run — it fails, leaves the state untouched, and the flag
stays set (sticky) — while every other public operation (`size`, `all`,
`has`, `get`, `le`, `by`, `unackby`, `unacked`, `pre`, `suc`, `min`,
`max`) never consults the flag and keeps returning its normal result. -/
theorem claim_C5_amended_poisoned_only_blocks_add (t : Transcript)
    (msg : Message) (m u : String) (h : t.fubar = true) :
    (t.add msg).2 = Except.error
      "something horrible happened previously, refusing all operations" ∧
    (t.add msg).1 = t ∧ (t.add msg).1.fubar = true ∧
    (∀ b, (setFubar t b).size = t.size) ∧
    (∀ b, (setFubar t b).all = t.all) ∧
    (∀ b, (setFubar t b).hasM m = t.hasM m) ∧
    (∀ b, (setFubar t b).getM m = t.getM m) ∧
    (∀ b, (setFubar t b).le m u = t.le m u) ∧
    (∀ b, (setFubar t b).byM u = t.byM u) ∧
    (∀ b, (setFubar t b).unackbyM m = t.unackbyM m) ∧
    (∀ b, (setFubar t b).unackedM = t.unackedM) ∧
    (∀ b, (setFubar t b).pre m = t.pre m) ∧
    (∀ b, (setFubar t b).suc m = t.suc m) ∧
    (∀ b, (setFubar t b).minM = t.minM) ∧
    (∀ b, (setFubar t b).maxM = t.maxM) := by
  have herr : (t.add msg).2 = Except.error
      "something horrible happened previously, refusing all operations" := by
    simp [Transcript.add, addChecks, h]
  refine ⟨herr, ?_, ?_, fun _ => rfl, fun _ => rfl, fun _ => rfl, fun _ => rfl,
    ?_, fun _ => rfl, fun _ => rfl, fun _ => rfl, fun _ => rfl, fun _ => rfl,
    fun _ => rfl, fun _ => rfl⟩
  · exact add_error_fst_eq t msg _ herr
  · rw [add_error_fst_eq t msg _ herr]; exact h
  · intro b
    show leFuel (setFubar t b) ((setFubar t b).length + 1) m u = _
    exact leFuel_setFubar t b (t.length + 1) m u

/-- A poisoned transcript state (the flag a commit-phase crash sets). -/
def poisonedT : Transcript := setFubar Transcript.empty true

/-- Witness for the amended C5 at a concrete poisoned transcript. -/
theorem claim_C5_witness :
    (poisonedT.add ⟨some "m", some "A", [], []⟩).1 = poisonedT :=
  (claim_C5_amended_poisoned_only_blocks_add poisonedT
    ⟨some "m", some "A", [], []⟩ "x" "A" rfl).2.1

/-- C5 counterexample: on a concrete poisoned transcript the claim "every
future public operation fails with an error" is false — `size`, `all`,
`has`, `by`, `unacked` all return their normal results (none of them
consults the flag, none can throw), and only `add` fails. -/
theorem claim_C5_counterexample :
    poisonedT.fubar = true ∧
    poisonedT.size = 0 ∧ poisonedT.all = [] ∧ poisonedT.hasM "x" = false ∧
    poisonedT.byM "A" = none ∧ poisonedT.unackedM = [] ∧
    (poisonedT.add ⟨some "m", some "A", [], []⟩).2 = Except.error
      "something horrible happened previously, refusing all operations" :=
  ⟨rfl, rfl, rfl, rfl, rfl, rfl, rfl⟩

theorem mem_of_lookup {β : Type} {l : List (String × β)} {k : String} {v : β}
    (h : l.lookup k = some v) : (k, v) ∈ l := by
  induction l with
  | nil => simp [List.lookup] at h
  | cons a rest ih =>
    obtain ⟨a1, a2⟩ := a
    rw [List.lookup] at h
    by_cases hk : k = a1
    · rw [show (k == a1) = true by simp [hk]] at h
      simp at h
      subst hk
      subst h
      exact List.mem_cons_self _ _
    · rw [show (k == a1) = false by simp [hk]] at h
      simp at h
      exact List.mem_cons_of_mem _ (ih h)

/-- The facts the commit phase may rely on once every check of
`addChecks` has passed. -/
structure AddOk (t : Transcript) (msg : Message) (mId uId : String) : Prop where
  notSelf : msg.parents.contains mId = false
  fresh : t.msg? mId = none
  notReader : msg.readers.contains uId = false
  parentsPresent : ∀ p ∈ dedupKeep msg.parents, (t.msg? p).isSome
  prevRef : ∀ lst pum, t.authorMessages.lookup uId = some lst →
      lst.getLast? = some pum → (dedupKeep msg.parents).any (t.le pum) = true

theorem addChecks_none_ok (t : Transcript) (msg : Message) (mId uId : String)
    (hm : msg.mId = some mId) (ha : msg.author = some uId)
    (h : addChecks t msg = none) : AddOk t msg mId uId := by
  unfold addChecks at h
  simp only [hm, ha] at h
  by_cases hf : t.fubar = true
  · rw [if_pos hf] at h; exact absurd h (by simp)
  · rw [if_neg hf] at h
    by_cases h1 : msg.parents.contains mId = true
    · rw [if_pos h1] at h; exact absurd h (by simp)
    · rw [if_neg h1] at h
      by_cases h2 : (t.msg? mId).isSome = true
      · rw [if_pos h2] at h; exact absurd h (by simp)
      · rw [if_neg h2] at h
        by_cases h3 : msg.readers.contains uId = true
        · rw [if_pos h3] at h; exact absurd h (by simp)
        · rw [if_neg h3] at h
          by_cases h4 : ((dedupKeep msg.parents).filter
              (fun p => (t.msg? p).isNone)).isEmpty = true
          · rw [if_neg (by simp [h4])] at h
            by_cases h5 : ((dedupKeep msg.parents).filter
                (fun p => !((t.msg? p).elim false
                  (fun mm => mm.membersContain uId)))).isEmpty = true
            · rw [if_neg (by simp [h5])] at h
              by_cases h6 : (dedupKeep ((dedupKeep msg.parents).map
                  t.authorOf)).length < (dedupKeep msg.parents).length
              · rw [if_pos h6] at h; exact absurd h (by simp)
              · rw [if_neg h6] at h
                refine ⟨by simpa using h1, by simpa using h2,
                  by simpa using h3, ?_, ?_⟩
                · intro p hp
                  rw [List.isEmpty_iff, List.filter_eq_nil_iff] at h4
                  have h4p := h4 p hp
                  simpa [Option.isSome_iff_ne_none, Option.isNone_iff_eq_none]
                    using h4p
                · intro lst pum hlst hlast
                  rw [hlst] at h
                  simp only [Option.some_bind] at h
                  rw [hlast] at h
                  simp only [] at h
                  by_cases h7 : (dedupKeep msg.parents).any (t.le pum) = true
                  · exact h7
                  · rw [if_pos (by simp [h7] : (!(dedupKeep msg.parents).any
                      (t.le pum)) = true)] at h
                    exact absurd h (by simp)
            · rw [if_pos (by simpa using h5)] at h
              exact absurd h (by simp)
          · rw [if_pos (by simpa using h4)] at h
            exact absurd h (by simp)

theorem WF.authorOf_isSome_msg {t : Transcript} {m u : String}
    (h : t.authorOf m = some u) : (t.msg? m).isSome := by
  unfold Transcript.authorOf at h
  cases hm : t.msg? m <;> simp [hm] at h ⊢

theorem WF.idx_fresh {t : Transcript} (w : WF t) {mId : String}
    (h : t.msg? mId = none) : t.idx? mId = none := by
  have := w.msg_idx mId
  rw [h] at this
  simp at this
  simpa [Option.isNone_iff_eq_none] using this

theorem WF.aIdx_fresh {t : Transcript} (w : WF t) {mId : String}
    (h : t.msg? mId = none) : t.aIdx? mId = none := by
  cases ha : t.aIdx? mId with
  | none => rfl
  | some i =>
    obtain ⟨u, lst, hau, _, _⟩ := w.aIdx_author mId i ha
    have := WF.authorOf_isSome_msg hau
    rw [h] at this
    simp at this

theorem WF.not_in_author_list {t : Transcript} (w : WF t) {mId : String}
    (h : t.msg? mId = none) {u : String} {lst : List String}
    (hlk : t.authorMessages.lookup u = some lst) : mId ∉ lst := by
  intro hmem
  obtain ⟨i, hi, hget⟩ := List.getElem_of_mem hmem
  have := (w.author_list u lst hlk i mId (by rw [List.getElem?_eq_some]; exact ⟨hi, hget⟩)).2
  have := WF.authorOf_isSome_msg this
  rw [h] at this
  simp at this

theorem filter_idem {l : List String} (p : String → Bool) :
    (l.filter p).filter p = l.filter p := by
  rw [List.filter_filter]
  congr 1
  funext a
  cases p a <;> rfl

/-- The value `unackby` holds at each key after the ack-propagation fold
of `add`'s commit phase. -/
theorem lookup_ack_foldl (anc : List String)
    (u₁ : List (String × List String)) (uId : String) :
    ∀ x, (anc.foldl
        (fun acc am =>
          mset acc am (((acc.lookup am).getD []).filter (fun r => !(r == uId))))
        u₁).lookup x =
      if x ∈ anc then
        some (((u₁.lookup x).getD []).filter (fun r => !(r == uId)))
      else u₁.lookup x := by
  induction anc generalizing u₁ with
  | nil => intro x; simp
  | cons a rest ih =>
    intro x
    rw [List.foldl_cons]
    rw [ih (mset u₁ a (((u₁.lookup a).getD []).filter (fun r => !(r == uId)))) x]
    by_cases hxr : x ∈ rest
    · rw [if_pos hxr, if_pos (List.mem_cons_of_mem _ hxr)]
      by_cases hxa : x = a
      · subst hxa
        rw [lookup_mset]
        simp [filter_idem]
      · rw [lookup_mset]
        simp [hxa]
    · rw [if_neg hxr]
      by_cases hxa : x = a
      · subst hxa
        rw [lookup_mset]
        simp
      · rw [lookup_mset]
        simp only [if_neg hxa]
        rw [if_neg (by simp [hxa, hxr])]

theorem addCommit_msg? (t : Transcript) (msg : Message) (mId uId x : String) :
    ((addCommit t msg mId uId).1).msg? x =
      if x = mId then some msg else t.msg? x := by
  show (mset t.messages mId msg).lookup x = _
  exact lookup_mset _ _ _ _

theorem addCommit_idx? (t : Transcript) (msg : Message) (mId uId x : String) :
    ((addCommit t msg mId uId).1).idx? x =
      if x = mId then some t.length else t.idx? x := by
  show (mset t.messageIndex mId t.length).lookup x = _
  exact lookup_mset _ _ _ _

theorem addCommit_aIdx? (t : Transcript) (msg : Message) (mId uId x : String) :
    ((addCommit t msg mId uId).1).aIdx? x =
      if x = mId then some ((t.authorMessages.lookup uId).getD []).length
      else t.aIdx? x := by
  show (mset t.authorIndex mId _).lookup x = _
  exact lookup_mset _ _ _ _

theorem addCommit_ctx? (t : Transcript) (msg : Message) (mId uId x : String) :
    ((addCommit t msg mId uId).1).ctx? x =
      if x = mId then some (mergeContext t (dedupKeep msg.parents) msg.readers)
      else t.ctx? x := by
  show (mset t.context mId _).lookup x = _
  exact lookup_mset _ _ _ _

theorem addCommit_am (t : Transcript) (msg : Message) (mId uId u : String) :
    ((addCommit t msg mId uId).1).authorMessages.lookup u =
      if u = uId then
        some (((t.authorMessages.lookup uId).getD []) ++ [mId])
      else t.authorMessages.lookup u := by
  show (mset t.authorMessages uId _).lookup u = _
  exact lookup_mset _ _ _ _

theorem addCommit_length (t : Transcript) (msg : Message) (mId uId : String) :
    ((addCommit t msg mId uId).1).length = t.length + 1 := rfl

theorem addCommit_log (t : Transcript) (msg : Message) (mId uId : String) :
    ((addCommit t msg mId uId).1).log = t.log ++ [mId] := rfl

theorem addCommit_authorOf (t : Transcript) (msg : Message) (mId uId x : String)
    (ha : msg.author = some uId) :
    ((addCommit t msg mId uId).1).authorOf x =
      if x = mId then some uId else t.authorOf x := by
  unfold Transcript.authorOf
  rw [show ((addCommit t msg mId uId).1).msg? x =
        if x = mId then some msg else t.msg? x from addCommit_msg? t msg mId uId x]
  by_cases hx : x = mId <;> simp [hx, ha]

theorem addCommit_unackby (t : Transcript) (msg : Message) (mId uId x : String) :
    ((addCommit t msg mId uId).1).unackby.lookup x =
      (let unackby₁ := mset t.unackby mId msg.readers
       let pred := fun m => ((unackby₁.lookup m).getD []).contains uId
       let anc := ancestorsThrough t (dedupKeep msg.parents) pred
       if x ∈ anc then
         some (((unackby₁.lookup x).getD []).filter (fun r => !(r == uId)))
       else unackby₁.lookup x) := by
  show (List.foldl _ (mset t.unackby mId msg.readers) _).lookup x = _
  exact lookup_ack_foldl _ _ _ x

/-- An acceptable context entry for a message about to get accept index
`t.length`: a `null` value, or an accepted message authored by the key
with a strictly smaller accept index. -/
def ctxEntOk (t : Transcript) (u : String) (v : Option String) : Prop :=
  ∀ q, v = some q →
    t.authorOf q = some u ∧ ∃ kq, t.idx? q = some kq ∧ kq < t.length

def ctxAllOk (t : Transcript) (c : List (String × Option String)) : Prop :=
  ∀ e ∈ c, ctxEntOk t e.1 e.2

theorem ctxAllOk_mset {t : Transcript} {acc : List (String × Option String)}
    {u : String} {v : Option String} (h : ctxAllOk t acc)
    (he : ctxEntOk t u v) : ctxAllOk t (mset acc u v) := by
  intro e hme
  rcases List.mem_cons.mp hme with rfl | hme'
  · exact he
  · exact h e (List.mem_filter.mp hme').1

theorem ctxAllOk_ctxUpdate {t : Transcript} {acc : List (String × Option String)}
    {e : String × Option String} (h : ctxAllOk t acc)
    (he : ctxEntOk t e.1 e.2) : ctxAllOk t (ctxUpdate t acc e) := by
  unfold ctxUpdate
  split
  · exact ctxAllOk_mset h he
  · exact ctxAllOk_mset h he
  · split
    · exact h
    · split
      · exact ctxAllOk_mset h he
      · exact h

theorem ctxAllOk_foldl_entries {t : Transcript}
    (pc : List (String × Option String))
    (hpc : ∀ e ∈ pc, ctxEntOk t e.1 e.2) :
    ∀ acc, ctxAllOk t acc → ctxAllOk t (pc.foldl (ctxUpdate t) acc) := by
  induction pc with
  | nil => intro acc h; exact h
  | cons e rest ih =>
    intro acc h
    rw [List.foldl_cons]
    exact ih (fun e' he' => hpc e' (List.mem_cons_of_mem _ he'))
      _ (ctxAllOk_ctxUpdate h (hpc e (List.mem_cons_self _ _)))

/-- Every non-null entry of the merged context of a message about to be
accepted is an earlier accepted message authored by its key. -/
theorem mergeContext_mem (t : Transcript) (pmIdArr ruId : List String)
    (w : WF t) (hpp : ∀ p ∈ pmIdArr, (t.msg? p).isSome) :
    ∀ u p, (u, some p) ∈ mergeContext t pmIdArr ruId →
      t.authorOf p = some u ∧ ∃ kp, t.idx? p = some kp ∧ kp < t.length := by
  have h1 : ctxAllOk t (pmIdArr.foldl
      (fun acc p => ((t.ctx? p).getD []).foldl (ctxUpdate t) acc) []) := by
    have : ∀ ps : List String, (∀ p ∈ ps, (t.msg? p).isSome) →
        ∀ acc, ctxAllOk t acc → ctxAllOk t (ps.foldl
          (fun acc p => ((t.ctx? p).getD []).foldl (ctxUpdate t) acc) acc) := by
      intro ps
      induction ps with
      | nil => intro _ acc h; exact h
      | cons p rest ih =>
        intro hps acc h
        rw [List.foldl_cons]
        refine ih (fun q hq => hps q (List.mem_cons_of_mem _ hq)) _ ?_
        refine ctxAllOk_foldl_entries _ ?_ _ h
        intro e he
        rcases hc : t.ctx? p with _ | pc
        · rw [hc] at he; simp at he
        · rw [hc] at he
          simp only [Option.getD_some] at he
          intro q hq
          obtain ⟨hq1, kq, kp, hq2, hq3, hq4⟩ := by
            have := w.ctx_wf p pc hc e.1 q
            apply this
            rw [← hq]; exact he
          exact ⟨hq1, kq, hq2, lt_trans hq4 (w.idx_lt_length hq3)⟩
    exact this pmIdArr hpp [] (by intro e he; simp at he)
  have h2 : ctxAllOk t (pmIdArr.foldl
      (fun acc p =>
        match t.authorOf p with
        | some au => mset acc au (some p)
        | none => acc)
      (pmIdArr.foldl
        (fun acc p => ((t.ctx? p).getD []).foldl (ctxUpdate t) acc) [])) := by
    have : ∀ ps : List String, (∀ p ∈ ps, (t.msg? p).isSome) →
        ∀ acc, ctxAllOk t acc → ctxAllOk t (ps.foldl
          (fun acc p =>
            match t.authorOf p with
            | some au => mset acc au (some p)
            | none => acc) acc) := by
      intro ps
      induction ps with
      | nil => intro _ acc h; exact h
      | cons p rest ih =>
        intro hps acc h
        rw [List.foldl_cons]
        refine ih (fun q hq => hps q (List.mem_cons_of_mem _ hq)) _ ?_
        rcases hao : t.authorOf p with _ | au
        · simpa [hao] using h
        · simp only [hao]
          refine ctxAllOk_mset h ?_
          intro q hq
          injection hq with hq
          subst hq
          refine ⟨hao, ?_⟩
          have hps' := hps p (List.mem_cons_self _ _)
          obtain ⟨kp, hkp⟩ := Option.isSome_iff_exists.mp ((w.msg_idx p).mp hps')
          exact ⟨kp, hkp, w.idx_lt_length hkp⟩
    exact this pmIdArr hpp _ h1
  have h3 : ctxAllOk t ((ruId.foldl
      (fun acc u => if (acc.lookup u).isSome then acc else mset acc u none)
      (pmIdArr.foldl
        (fun acc p =>
          match t.authorOf p with
          | some au => mset acc au (some p)
          | none => acc)
        (pmIdArr.foldl
          (fun acc p => ((t.ctx? p).getD []).foldl (ctxUpdate t) acc) [])))) := by
    have : ∀ us : List String, ∀ acc, ctxAllOk t acc → ctxAllOk t (us.foldl
        (fun acc u => if (acc.lookup u).isSome then acc else mset acc u none)
        acc) := by
      intro us
      induction us with
      | nil => intro acc h; exact h
      | cons u rest ih =>
        intro acc h
        rw [List.foldl_cons]
        refine ih _ ?_
        split
        · exact h
        · exact ctxAllOk_mset h (by intro q hq; simp at hq)
    exact this ruId _ h2
  intro u p hmem
  unfold mergeContext at hmem
  simp only [] at hmem
  have hmem' := (List.mem_filter.mp hmem).1
  exact h3 (u, some p) hmem' p rfl

theorem getElem?_append_singleton {l : List String} {a x : String} {i : Nat}
    (h : (l ++ [a])[i]? = some x) :
    (i < l.length ∧ l[i]? = some x) ∨ (i = l.length ∧ x = a) := by
  by_cases hi : i < l.length
  · left
    exact ⟨hi, by rw [List.getElem?_append_left hi] at h; exact h⟩
  · right
    rw [List.getElem?_append_right (Nat.le_of_not_lt hi)] at h
    rcases hd : i - l.length with _ | n
    · rw [hd] at h
      simp at h
      exact ⟨by omega, h.symm⟩
    · rw [hd] at h
      simp at h

theorem wf_addCommit (t : Transcript) (msg : Message) (mId uId : String)
    (w : WF t) (ok : AddOk t msg mId uId)
    (hm : msg.mId = some mId) (ha : msg.author = some uId) :
    WF (addCommit t msg mId uId).1 := by
  have hmsg' := addCommit_msg? t msg mId uId
  have hidx' := addCommit_idx? t msg mId uId
  have haidx' := addCommit_aIdx? t msg mId uId
  have hctx' := addCommit_ctx? t msg mId uId
  have ham' := addCommit_am t msg mId uId
  have hao' : ∀ x, ((addCommit t msg mId uId).1).authorOf x =
      if x = mId then some uId else t.authorOf x :=
    fun x => addCommit_authorOf t msg mId uId x ha
  have hfreshIdx : t.idx? mId = none := w.idx_fresh ok.fresh
  have hne : ∀ x u', t.authorOf x = some u' → x ≠ mId := by
    intro x u' hx heq
    subst heq
    have := WF.authorOf_isSome_msg hx
    rw [ok.fresh] at this
    simp at this
  have hneM : ∀ x, (t.msg? x).isSome → x ≠ mId := by
    intro x hx heq
    subst heq
    rw [ok.fresh] at hx
    simp at hx
  have hneI : ∀ (x : String) (k : Nat), t.idx? x = some k → x ≠ mId := by
    intro x k hx heq
    subst heq
    rw [hfreshIdx] at hx
    simp at hx
  have holdlist : ∀ (i : Nat) (m : String),
      ((t.authorMessages.lookup uId).getD [])[i]? = some m →
      t.aIdx? m = some i ∧ t.authorOf m = some uId := by
    intro i m hi
    rcases hu : t.authorMessages.lookup uId with _ | lst
    · rw [hu] at hi; simp at hi
    · rw [hu] at hi
      exact w.author_list uId lst hu i m hi
  have holdmono : ∀ (i j : Nat) (mi mj : String), i ≤ j →
      ((t.authorMessages.lookup uId).getD [])[i]? = some mi →
      ((t.authorMessages.lookup uId).getD [])[j]? = some mj →
      ∃ ki kj, t.idx? mi = some ki ∧ t.idx? mj = some kj ∧ ki ≤ kj := by
    intro i j mi mj hij hgi hgj
    rcases hu : t.authorMessages.lookup uId with _ | lst
    · rw [hu] at hgi; simp at hgi
    · rw [hu] at hgi hgj
      exact w.author_mono uId lst hu i j mi mj hij hgi hgj
  constructor
  case len_eq =>
    rw [addCommit_length, addCommit_log]
    simp [w.len_eq]
  case log_idx =>
    intro m k hk
    rw [hidx' m] at hk
    rw [addCommit_log]
    by_cases hxm : m = mId
    · rw [if_pos hxm] at hk
      injection hk with hk1
      rw [hxm, ← hk1, w.len_eq]
      exact List.getElem?_concat_length t.log mId
    · rw [if_neg hxm] at hk
      have hl := w.log_idx m k hk
      have hlt : k < t.log.length := by
        have := w.idx_lt_length hk
        rw [w.len_eq] at this
        exact this
      rw [List.getElem?_append_left hlt]
      exact hl
  case msg_idx =>
    intro m
    rw [hmsg' m, hidx' m]
    by_cases hxm : m = mId
    · simp [hxm]
    · simp only [if_neg hxm]
      exact w.msg_idx m
  case author_list =>
    intro u lst hlk i m hget
    rw [ham' u] at hlk
    by_cases hu : u = uId
    · rw [if_pos hu] at hlk
      injection hlk with hlk
      rw [← hlk] at hget
      rcases getElem?_append_singleton hget with ⟨hi, hgo⟩ | ⟨hi, hxa⟩
      · obtain ⟨h1, h2⟩ := holdlist i m hgo
        have hmne : m ≠ mId := hne m uId h2
        rw [haidx' m, if_neg hmne, hao' m, if_neg hmne, hu]
        exact ⟨h1, h2⟩
      · rw [haidx' m, if_pos hxa, hao' m, if_pos hxa, hi, hu]
        exact ⟨rfl, rfl⟩
    · rw [if_neg hu] at hlk
      obtain ⟨h1, h2⟩ := w.author_list u lst hlk i m hget
      have hmne : m ≠ mId := hne m u h2
      rw [haidx' m, if_neg hmne, hao' m, if_neg hmne]
      exact ⟨h1, h2⟩
  case aIdx_author =>
    intro m i hai
    rw [haidx' m] at hai
    by_cases hxm : m = mId
    · rw [if_pos hxm] at hai
      injection hai with hai
      refine ⟨uId, ((t.authorMessages.lookup uId).getD []) ++ [mId], ?_, ?_, ?_⟩
      · rw [hao' m, if_pos hxm]
      · rw [ham' uId, if_pos rfl]
      · rw [hxm, ← hai]
        exact List.getElem?_concat_length _ mId
    · rw [if_neg hxm] at hai
      obtain ⟨u, lst, h1, h2, h3⟩ := w.aIdx_author m i hai
      by_cases hu : u = uId
      · have h1' : t.authorOf m = some uId := by rw [← hu]; exact h1
        have h2' : t.authorMessages.lookup uId = some lst := by
          rw [← hu]; exact h2
        refine ⟨uId, ((t.authorMessages.lookup uId).getD []) ++ [mId], ?_, ?_, ?_⟩
        · rw [hao' m, if_neg hxm]; exact h1'
        · rw [ham' uId, if_pos rfl]
        · have hlt : i < lst.length := by
            rw [List.getElem?_eq_some] at h3
            exact h3.1
          rw [h2']
          simp only [Option.getD_some]
          rw [List.getElem?_append_left hlt]
          exact h3
      · refine ⟨u, lst, ?_, ?_, h3⟩
        · rw [hao' m, if_neg hxm]; exact h1
        · rw [ham' u, if_neg hu]; exact h2
  case author_mono =>
    intro u lst hlk i j mi mj hij hgi hgj
    rw [ham' u] at hlk
    by_cases hu : u = uId
    · rw [if_pos hu] at hlk
      injection hlk with hlk
      rw [← hlk] at hgi hgj
      rcases getElem?_append_singleton hgj with ⟨hjlt, hgjo⟩ | ⟨hje, hxa⟩
      · have hilt : i < ((t.authorMessages.lookup uId).getD []).length :=
          Nat.lt_of_le_of_lt hij hjlt
        rcases getElem?_append_singleton hgi with ⟨_, hgio⟩ | ⟨hie, _⟩
        · obtain ⟨ki, kj, hki, hkj, hkk⟩ := holdmono i j mi mj hij hgio hgjo
          refine ⟨ki, kj, ?_, ?_, hkk⟩
          · rw [hidx' mi, if_neg (hneI mi ki hki)]; exact hki
          · rw [hidx' mj, if_neg (hneI mj kj hkj)]; exact hkj
        · omega
      · rcases getElem?_append_singleton hgi with ⟨_, hgio⟩ | ⟨_, hxi⟩
        · obtain ⟨ki, _, hki, _, _⟩ := holdmono i i mi mi (Nat.le_refl i) hgio hgio
          refine ⟨ki, t.length, ?_, ?_, Nat.le_of_lt (w.idx_lt_length hki)⟩
          · rw [hidx' mi, if_neg (hneI mi ki hki)]; exact hki
          · rw [hidx' mj, if_pos hxa]
        · refine ⟨t.length, t.length, ?_, ?_, Nat.le_refl _⟩
          · rw [hidx' mi, if_pos hxi]
          · rw [hidx' mj, if_pos hxa]
    · rw [if_neg hu] at hlk
      obtain ⟨ki, kj, hki, hkj, hkk⟩ :=
        w.author_mono u lst hlk i j mi mj hij hgi hgj
      refine ⟨ki, kj, ?_, ?_, hkk⟩
      · rw [hidx' mi, if_neg (hneI mi ki hki)]; exact hki
      · rw [hidx' mj, if_neg (hneI mj kj hkj)]; exact hkj
  case parents_wf =>
    intro m mm hmm p hp
    rw [hmsg' m] at hmm
    by_cases hxm : m = mId
    · rw [if_pos hxm] at hmm
      injection hmm with hmm
      rw [← hmm] at hp
      have hpd : p ∈ dedupKeep msg.parents := (mem_dedupKeep _ _).mpr hp
      have hps := ok.parentsPresent p hpd
      have hpne := hneM p hps
      obtain ⟨kp, hkp⟩ := Option.isSome_iff_exists.mp ((w.msg_idx p).mp hps)
      refine ⟨?_, kp, t.length, ?_, ?_, w.idx_lt_length hkp⟩
      · rw [hmsg' p, if_neg hpne]; exact hps
      · rw [hidx' p, if_neg hpne]; exact hkp
      · rw [hidx' m, if_pos hxm]
    · rw [if_neg hxm] at hmm
      obtain ⟨hpsome, kp, km, h1, h2, h3⟩ := w.parents_wf m mm hmm p hp
      have hpne := hneM p hpsome
      refine ⟨?_, kp, km, ?_, ?_, h3⟩
      · rw [hmsg' p, if_neg hpne]; exact hpsome
      · rw [hidx' p, if_neg hpne]; exact h1
      · rw [hidx' m, if_neg hxm]; exact h2
  case ctx_wf =>
    intro m ctx hctx u p hmem
    rw [hctx' m] at hctx
    by_cases hxm : m = mId
    · rw [if_pos hxm] at hctx
      injection hctx with hctx
      rw [← hctx] at hmem
      obtain ⟨h1, kp, h2, h3⟩ :=
        mergeContext_mem t _ _ w ok.parentsPresent u p hmem
      have hpne := hne p u h1
      refine ⟨?_, kp, t.length, ?_, ?_, h3⟩
      · rw [hao' p, if_neg hpne]; exact h1
      · rw [hidx' p, if_neg hpne]; exact h2
      · rw [hidx' m, if_pos hxm]
    · rw [if_neg hxm] at hctx
      obtain ⟨h1, kp, km, h2, h3, h4⟩ := w.ctx_wf m ctx hctx u p hmem
      have hpne := hne p u h1
      refine ⟨?_, kp, km, ?_, ?_, h4⟩
      · rw [hao' p, if_neg hpne]; exact h1
      · rw [hidx' p, if_neg hpne]; exact h2
      · rw [hidx' m, if_neg hxm]; exact h3
  case unackby_dom =>
    intro m hms
    rw [hmsg' m] at hms
    rw [addCommit_unackby]
    simp only []
    by_cases hxm : m = mId
    · split
      · simp
      · rw [lookup_mset]
        simp [hxm]
    · rw [if_neg hxm] at hms
      have hub := w.unackby_dom m hms
      split
      · simp
      · rw [lookup_mset]
        rw [if_neg hxm]
        exact hub

theorem add_ok_cases (t : Transcript) (msg : Message)
    (h : (t.add msg).2.isOk = true) :
    ∃ mId uId, msg.mId = some mId ∧ msg.author = some uId ∧
      addChecks t msg = none ∧
      (t.add msg).1 = (addCommit t msg mId uId).1 ∧
      (t.add msg).2 = Except.ok (addCommit t msg mId uId).2 := by
  unfold Transcript.add at h ⊢
  cases hc : addChecks t msg with
  | some e' => rw [hc] at h; exact Bool.noConfusion h
  | none =>
    rw [hc] at h
    rcases hm : msg.mId with _ | mId <;> rcases ha : msg.author with _ | uId <;>
        rw [hm, ha] at h
    · exact Bool.noConfusion h
    · exact Bool.noConfusion h
    · exact Bool.noConfusion h
    · exact ⟨mId, uId, rfl, rfl, rfl, rfl, rfl⟩

theorem wf_add (t : Transcript) (msg : Message) (w : WF t)
    (h : (t.add msg).2.isOk = true) : WF (t.add msg).1 := by
  obtain ⟨mId, uId, hm, ha, hc, heq, -⟩ := add_ok_cases t msg h
  rw [heq]
  exact wf_addCommit t msg mId uId w (addChecks_none_ok t msg mId uId hm ha hc)
    hm ha

theorem wf_reachable {t : Transcript} (h : Reachable t) : WF t := by
  induction h with
  | empty => exact wf_empty
  | step msg _ hok ih => exact wf_add _ msg ih hok

/-- C3: for accepted messages, `le a b` implies the accept index of `a`
(its position in `all()`, the order of successful `add` calls) is at
most that of `b`: accept order is a linear extension of the causal
order. -/
theorem claim_C3_accept_order_linear_extension (t : Transcript)
    (ht : Reachable t) (a b : String) (hle : t.le a b = true)
    (ha : t.hasM a = true) (hb : t.hasM b = true) :
    ∃ ka kb, t.idx? a = some ka ∧ t.idx? b = some kb ∧ ka ≤ kb ∧
      t.all[ka]? = some a ∧ t.all[kb]? = some b := by
  have w := wf_reachable ht
  have hia : (t.idx? a).isSome :=
    (w.msg_idx a).mp (by simpa [Transcript.hasM] using ha)
  have hib : (t.idx? b).isSome :=
    (w.msg_idx b).mp (by simpa [Transcript.hasM] using hb)
  obtain ⟨ka, hka⟩ := Option.isSome_iff_exists.mp hia
  obtain ⟨kb, hkb⟩ := Option.isSome_iff_exists.mp hib
  suffices hs : ka ≤ kb by
    exact ⟨ka, kb, hka, hkb, hs, w.log_idx a ka hka, w.log_idx b kb hkb⟩
  by_cases hab : a = b
  · subst hab
    rw [hka] at hkb
    injection hkb with h
    omega
  · unfold Transcript.le leFuel at hle
    rw [show (a == b) = false by simp [hab]] at hle
    simp only [Bool.false_eq_true, if_false] at hle
    rcases hma : t.msg? a with _ | mm0
    · rw [hma] at hle; exact Bool.noConfusion hle
    rcases hmb : t.msg? b with _ | mm1
    · rw [hma, hmb] at hle; exact Bool.noConfusion hle
    rw [hma, hmb] at hle
    simp only [] at hle
    rcases hau0 : mm0.author with _ | u0
    · rw [hau0] at hle; exact Bool.noConfusion hle
    rcases hau1 : mm1.author with _ | u1
    · rw [hau0, hau1] at hle; exact Bool.noConfusion hle
    rw [hau0, hau1] at hle
    simp only [] at hle
    have hAOa : t.authorOf a = some u0 := by
      unfold Transcript.authorOf
      rw [hma]
      simpa using hau0
    have hAOb : t.authorOf b = some u1 := by
      unfold Transcript.authorOf
      rw [hmb]
      simpa using hau1
    by_cases hu : u0 = u1
    · rw [show (u0 == u1) = true by simp [hu]] at hle
      simp only [if_true] at hle
      rcases hA : t.aIdx? a with _ | i0
      · rw [hA] at hle; simp [optLe] at hle
      rcases hB : t.aIdx? b with _ | i1
      · rw [hA, hB] at hle; simp [optLe] at hle
      rw [hA, hB] at hle
      simp only [optLe, decide_eq_true_eq] at hle
      obtain ⟨ua, lsta, haua, hlka, hgeta⟩ := w.aIdx_author a i0 hA
      obtain ⟨ub, lstb, haub, hlkb, hgetb⟩ := w.aIdx_author b i1 hB
      have hua : ua = u0 := by rw [hAOa] at haua; injection haua with h; exact h.symm
      have hub : ub = u1 := by rw [hAOb] at haub; injection haub with h; exact h.symm
      have hlstb : lstb = lsta := by
        rw [hua] at hlka
        rw [hub, ← hu] at hlkb
        rw [hlka] at hlkb
        injection hlkb with h
        exact h.symm
      rw [hlstb] at hgetb
      obtain ⟨ka', kb', hka', hkb', hkk⟩ := by
        have := w.author_mono u0 lsta (by rw [← hua]; exact hlka)
        exact this i0 i1 a b hle hgeta hgetb
      rw [hka] at hka'
      rw [hkb] at hkb'
      injection hka' with e1
      injection hkb' with e2
      omega
    · rw [show (u0 == u1) = false by simp [hu]] at hle
      simp only [Bool.false_eq_true, if_false] at hle
      by_cases hr : mm1.readers.contains u0 = true
      · rw [hr] at hle
        simp only [if_true] at hle
        rcases hcb : t.ctx? b with _ | ctx
        · rw [hcb] at hle; exact Bool.noConfusion hle
        rw [hcb] at hle
        simp only [] at hle
        rcases hlu : ctx.lookup u0 with _ | p0?
        · rw [hlu] at hle; exact Bool.noConfusion hle
        rcases p0? with _ | p0
        · rw [hlu] at hle; exact Bool.noConfusion hle
        rw [hlu] at hle
        simp only [] at hle
        obtain ⟨hap0, kp, kb₂, hkp, hkb₂, hlt⟩ :=
          w.ctx_wf b ctx hcb u0 p0 (mem_of_lookup hlu)
        rcases hA : t.aIdx? a with _ | i0
        · rw [hA] at hle; simp [optLe] at hle
        rcases hP : t.aIdx? p0 with _ | ip
        · rw [hA, hP] at hle; simp [optLe] at hle
        rw [hA, hP] at hle
        simp only [optLe, decide_eq_true_eq] at hle
        obtain ⟨ua, lsta, haua, hlka, hgeta⟩ := w.aIdx_author a i0 hA
        obtain ⟨up, lstp, haup, hlkp, hgetp⟩ := w.aIdx_author p0 ip hP
        have hua : ua = u0 := by rw [hAOa] at haua; injection haua with h; exact h.symm
        have hup : up = u0 := by rw [hap0] at haup; injection haup with h; exact h.symm
        have hlstp : lstp = lsta := by
          rw [hua] at hlka
          rw [hup] at hlkp
          rw [hlka] at hlkp
          injection hlkp with h
          exact h.symm
        rw [hlstp] at hgetp
        obtain ⟨ka', kp', hka', hkp', hkk⟩ := by
          have := w.author_mono u0 lsta (by rw [← hua]; exact hlka)
          exact this i0 ip a p0 hle hgeta hgetp
        rw [hka] at hka'
        rw [hkp] at hkp'
        rw [hkb] at hkb₂
        injection hka' with e1
        injection hkp' with e2
        injection hkb₂ with e3
        omega
      · rw [show mm1.readers.contains u0 = false by simpa using hr] at hle
        simp only [Bool.false_eq_true, if_false] at hle
        rw [hka, hkb] at hle
        by_cases hgt : optGt (some ka) (some kb) = true
        · rw [hgt] at hle; simp at hle
        · simp only [optGt, decide_eq_true_eq] at hgt
          omega

/-- C2: an author's messages, in the order `by(u)` reports them, are
totally ordered by `le`; and `add` rejects any message from `u` none of
whose parents causally succeeds `u`'s previous accepted message. -/
theorem claim_C2_per_author_total_order (t : Transcript) (ht : Reachable t) :
    (∀ (u : String) (lst : List String) (i j : Nat) (mi mj : String),
      t.byM u = some lst → i ≤ j → lst[i]? = some mi → lst[j]? = some mj →
      t.le mi mj = true) ∧
    (∀ (msg : Message) (u : String) (lst : List String) (pum : String),
      msg.author = some u → t.byM u = some lst → lst.getLast? = some pum →
      (∀ p ∈ msg.parents, t.le pum p = false) →
      ∃ e, (t.add msg).2 = Except.error e) := by
  have w := wf_reachable ht
  constructor
  · intro u lst i j mi mj hlk hij hgi hgj
    have h1 := w.author_list u lst hlk i mi hgi
    have h2 := w.author_list u lst hlk j mj hgj
    by_cases heq : mi = mj
    · unfold Transcript.le leFuel
      rw [show (mi == mj) = true by simp [heq]]
      simp
    · obtain ⟨mm0, hmm0⟩ :=
        Option.isSome_iff_exists.mp (WF.authorOf_isSome_msg h1.2)
      obtain ⟨mm1, hmm1⟩ :=
        Option.isSome_iff_exists.mp (WF.authorOf_isSome_msg h2.2)
      have ha0 : mm0.author = some u := by
        have := h1.2
        unfold Transcript.authorOf at this
        rw [hmm0] at this
        simpa using this
      have ha1 : mm1.author = some u := by
        have := h2.2
        unfold Transcript.authorOf at this
        rw [hmm1] at this
        simpa using this
      unfold Transcript.le leFuel
      rw [show (mi == mj) = false by simp [heq]]
      simp only [Bool.false_eq_true, if_false]
      rw [hmm0, hmm1]
      simp only []
      rw [ha0, ha1]
      simp only []
      rw [show (u == u) = true by simp]
      simp only [if_true]
      rw [h1.1, h2.1]
      simp [optLe, hij]
  · intro msg u lst pum hmau hby hlast hnone
    cases hres : (t.add msg).2 with
    | error e => exact ⟨e, rfl⟩
    | ok l =>
      exfalso
      have hok : (t.add msg).2.isOk = true := by rw [hres]; rfl
      obtain ⟨mId, uId, hmi, hau, hc, -, -⟩ := add_ok_cases t msg hok
      have huu : uId = u := by
        rw [hmau] at hau
        injection hau with h
        exact h.symm
      have hany := (addChecks_none_ok t msg mId uId hmi hau hc).prevRef lst pum
        (by rw [huu]; exact hby) hlast
      obtain ⟨p, hp, hlep⟩ := List.any_eq_true.mp hany
      have := hnone p ((mem_dedupKeep _ _).mp hp)
      rw [this] at hlep
      exact Bool.noConfusion hlep

/-- A small concrete transcript used by witnesses: `m1` by A read by B,
then `m2` by B with parent `m1`, read by A. -/
def tW : Transcript :=
  ((Transcript.empty.add ⟨some "m1", some "A", [], ["B"]⟩).1.add
    ⟨some "m2", some "B", ["m1"], ["A"]⟩).1

theorem reachable_tW : Reachable tW :=
  Reachable.step ⟨some "m2", some "B", ["m1"], ["A"]⟩
    (Reachable.step ⟨some "m1", some "A", [], ["B"]⟩ Reachable.empty rfl) rfl

/-- Witness for C2 on a concrete transcript. -/
theorem claim_C2_witness :
    tW.le "m1" "m1" = true ∧
    (∃ e, (tW.add ⟨some "m3", some "A", [], ["B"]⟩).2 = Except.error e) :=
  ⟨(claim_C2_per_author_total_order tW reachable_tW).1 "A" ["m1"] 0 0
      "m1" "m1" rfl (Nat.le_refl 0) rfl rfl,
   (claim_C2_per_author_total_order tW reachable_tW).2
      ⟨some "m3", some "A", [], ["B"]⟩ "A" ["m1"] "m1" rfl rfl rfl
      (by intro p hp; exact absurd hp (by simp))⟩

/-- Witness for C3 on a concrete transcript. -/
theorem claim_C3_witness :
    ∃ ka kb, tW.idx? "m1" = some ka ∧ tW.idx? "m2" = some kb ∧ ka ≤ kb ∧
      tW.all[ka]? = some "m1" ∧ tW.all[kb]? = some "m2" :=
  claim_C3_accept_order_linear_extension tW reachable_tW "m1" "m2" rfl rfl rfl

theorem foldl_parents_forall (pred : String → Bool)
    (Q : String → Prop) (plist : List String)
    (hpl : ∀ p ∈ plist, pred p = true → Q p) :
    ∀ acc, (∀ x ∈ acc, Q x) →
      ∀ x ∈ plist.foldl
        (fun acc2 p =>
          if pred p && !(acc2.contains p) then acc2 ++ [p] else acc2) acc,
        Q x := by
  induction plist with
  | nil => intro acc hacc x hx; exact hacc x hx
  | cons p rest ih =>
    intro acc hacc x hx
    rw [List.foldl_cons] at hx
    refine ih (fun q hq hpq => hpl q (List.mem_cons_of_mem _ hq) hpq) _ ?_ x hx
    intro y hy
    by_cases hcond : (pred p && !(acc.contains p)) = true
    · rw [if_pos hcond] at hy
      rcases List.mem_append.mp hy with hy | hy
      · exact hacc y hy
      · simp at hy
        rw [hy]
        have hc2 : pred p = true := by
          have hc3 := hcond
          simp only [Bool.and_eq_true] at hc3
          exact hc3.1
        exact hpl p (List.mem_cons_self _ _) hc2
    · rw [if_neg hcond] at hy
      exact hacc y hy

theorem ancStep_forall (t : Transcript) (pred : String → Bool)
    (Q : String → Prop)
    (hstep : ∀ m mm p, Q m → t.msg? m = some mm → p ∈ mm.parents →
        pred p = true → Q p)
    (cur : List String) (hcur : ∀ x ∈ cur, Q x) :
    ∀ x ∈ ancStep t pred cur, Q x := by
  unfold ancStep
  suffices hgen : ∀ ms : List String, (∀ m ∈ ms, Q m) →
      ∀ acc : List String, (∀ x ∈ acc, Q x) →
      ∀ x ∈ ms.foldl
        (fun acc m =>
          ((t.msg? m).elim [] Message.parents).foldl
            (fun acc2 p =>
              if pred p && !(acc2.contains p) then acc2 ++ [p] else acc2) acc)
        acc, Q x from hgen cur hcur cur hcur
  intro ms
  induction ms with
  | nil => intro _ acc hacc x hx; exact hacc x hx
  | cons m rest ih =>
    intro hms acc hacc x hx
    rw [List.foldl_cons] at hx
    refine ih (fun q hq => hms q (List.mem_cons_of_mem _ hq)) _ ?_ x hx
    refine foldl_parents_forall pred Q _ ?_ acc hacc
    intro p hp hpp
    rcases hmm : t.msg? m with _ | mm
    · rw [hmm] at hp; simp at hp
    · rw [hmm] at hp
      exact hstep m mm p (hms m (List.mem_cons_self _ _)) hmm hp hpp

theorem ancestorsThrough_forall (t : Transcript) (init : List String)
    (pred : String → Bool) (Q : String → Prop)
    (hinit : ∀ x ∈ init, pred x = true → Q x)
    (hstep : ∀ m mm p, Q m → t.msg? m = some mm → p ∈ mm.parents →
        pred p = true → Q p) :
    ∀ x ∈ ancestorsThrough t init pred, Q x := by
  unfold ancestorsThrough
  have hbase : ∀ x ∈ dedupKeep (init.filter pred), Q x := by
    intro x hx
    have := (mem_dedupKeep _ _).mp hx
    exact hinit x (List.mem_filter.mp this).1 (List.mem_filter.mp this).2
  suffices hgen : ∀ (n : Nat) (cur : List String), (∀ x ∈ cur, Q x) →
      ∀ x ∈ ancIter t pred n cur, Q x from
    hgen t.length _ hbase
  intro n
  induction n with
  | zero => intro cur hcur x hx; exact hcur x hx
  | succ k ih =>
    intro cur hcur x hx
    rw [ancIter] at hx
    exact ih _ (ancStep_forall t pred Q hstep cur hcur) x hx

/-- The traversal predicate of `add`'s ack walk: readers of `m` that
have not acked it yet include the new message's author. -/
def ackPred (t : Transcript) (msg : Message) (mId uId : String) :
    String → Bool :=
  fun m => (((mset t.unackby mId msg.readers).lookup m).getD []).contains uId

/-- The set of ancestors `add`'s ack walk visits. -/
def ackAnc (t : Transcript) (msg : Message) (mId uId : String) : List String :=
  ancestorsThrough t (dedupKeep msg.parents) (ackPred t msg mId uId)

/-- The unsorted newly-fully-acked set `add` collects: the new message
itself when it has no readers, plus every visited ancestor whose
`unackby` became empty. -/
def ackSet (t : Transcript) (msg : Message) (mId uId : String) : List String :=
  (if msg.readers.isEmpty then [mId] else []) ++
    (ackAnc t msg mId uId).filter (fun am =>
      ((((mset t.unackby mId msg.readers).lookup am).getD []).filter
        (fun r => !(r == uId))).isEmpty)

theorem addCommit_snd (t : Transcript) (msg : Message) (mId uId : String) :
    (addCommit t msg mId uId).2 =
      sortMIds (mset t.messageIndex mId t.length) (ackSet t msg mId uId) := rfl

/-- C4 (corrected): on a successful `add`, the returned list contains
exactly the messages that were accepted before the call, were not yet
fully acked, and whose `unackby` became empty through this insert —
plus, when the new message has an empty reader set, the new message's
own id; the list is sorted by ascending accept index.  Only in that
no-reader case does `msg.mId` appear. -/
theorem claim_C4_amended_acked_characterisation (t : Transcript)
    (msg : Message) (ht : Reachable t) (l : List String)
    (hok : (t.add msg).2 = Except.ok l) (mId uId : String)
    (hm : msg.mId = some mId) (ha : msg.author = some uId) :
    (∀ x, x ∈ l ↔
      (((t.msg? x).isSome ∧
        (∃ s, t.unackby.lookup x = some s ∧ s ≠ []) ∧
        ((t.add msg).1.unackby.lookup x = some []))
       ∨ (x = mId ∧ msg.readers = []))) ∧
    l.Pairwise (fun x y =>
      (((t.add msg).1.idx? x).getD 0) ≤ (((t.add msg).1.idx? y).getD 0)) ∧
    (msg.readers ≠ [] → mId ∉ l) := by
  have w := wf_reachable ht
  have hok' : (t.add msg).2.isOk = true := by rw [hok]; rfl
  obtain ⟨mId', uId', hm', ha', hc, heq1, heq2⟩ := add_ok_cases t msg hok'
  have hmid : mId = mId' := by
    rw [hm] at hm'
    injection hm' with h
  have huid : uId = uId' := by
    rw [ha] at ha'
    injection ha' with h
  rw [← hmid, ← huid] at heq1 heq2
  have ok := addChecks_none_ok t msg mId uId hm ha hc
  have hl : l = sortMIds (mset t.messageIndex mId t.length)
      (ackSet t msg mId uId) := by
    rw [heq2] at hok
    injection hok with h
    exact h.symm
  rw [heq1]
  have hub : ∀ x, ((addCommit t msg mId uId).1).unackby.lookup x =
      if x ∈ ackAnc t msg mId uId then
        some ((((mset t.unackby mId msg.readers).lookup x).getD []).filter
          (fun r => !(r == uId)))
      else (mset t.unackby mId msg.readers).lookup x :=
    fun x => addCommit_unackby t msg mId uId x
  have hancQ : ∀ x ∈ ackAnc t msg mId uId,
      ackPred t msg mId uId x = true ∧ (t.msg? x).isSome := by
    refine ancestorsThrough_forall t _ _ _ ?_ ?_
    · intro x hx hpx
      exact ⟨hpx, ok.parentsPresent x hx⟩
    · intro m mm p hQ hmm hp hpp
      exact ⟨hpp, (w.parents_wf m mm hmm p hp).1⟩
  have hnanc : mId ∉ ackAnc t msg mId uId := by
    intro hmem
    have := (hancQ mId hmem).2
    rw [ok.fresh] at this
    simp at this
  have hmem_iff : ∀ x, x ∈ l ↔ x ∈ ackSet t msg mId uId := by
    intro x
    rw [hl]
    unfold sortMIds
    exact (List.perm_insertionSort _ _).mem_iff
  have hu₁ : ∀ x, x ≠ mId →
      (mset t.unackby mId msg.readers).lookup x = t.unackby.lookup x := by
    intro x hx
    rw [lookup_mset]
    rw [if_neg hx]
  refine ⟨?_, ?_, ?_⟩
  · intro x
    rw [hmem_iff x]
    constructor
    · intro hx
      unfold ackSet at hx
      rcases List.mem_append.mp hx with hx | hx
      · by_cases hre : msg.readers.isEmpty = true
        · rw [if_pos hre] at hx
          simp at hx
          right
          exact ⟨hx, List.isEmpty_iff.mp hre⟩
        · rw [if_neg hre] at hx
          simp at hx
      · have hxf := List.mem_filter.mp hx
        obtain ⟨hQ1, hQ2⟩ := hancQ x hxf.1
        left
        have hxne : x ≠ mId := by
          intro hxe
          rw [hxe, ok.fresh] at hQ2
          simp at hQ2
        obtain ⟨s, hs⟩ := Option.isSome_iff_exists.mp (w.unackby_dom x hQ2)
        refine ⟨hQ2, ⟨s, hs, ?_⟩, ?_⟩
        · intro hse
          unfold ackPred at hQ1
          rw [hu₁ x hxne, hs, hse] at hQ1
          simp at hQ1
        · rw [hub x, if_pos hxf.1]
          have hcond := hxf.2
          rw [hu₁ x hxne, hs] at hcond ⊢
          rw [List.isEmpty_iff] at hcond
          simp only [Option.getD_some] at hcond ⊢
          rw [hcond]
    · intro hx
      rcases hx with ⟨hsome, ⟨s, hs, hsne⟩, hafter⟩ | ⟨hxe, hre⟩
      · have hxne : x ≠ mId := by
          intro hxe
          rw [hxe, ok.fresh] at hsome
          simp at hsome
        rw [hub x] at hafter
        by_cases hxanc : x ∈ ackAnc t msg mId uId
        · rw [if_pos hxanc] at hafter
          unfold ackSet
          refine List.mem_append.mpr (Or.inr ?_)
          refine List.mem_filter.mpr ⟨hxanc, ?_⟩
          rw [hu₁ x hxne, hs] at hafter ⊢
          simp only [Option.getD_some] at hafter ⊢
          injection hafter with h
          rw [h]
          rfl
        · rw [if_neg hxanc, hu₁ x hxne, hs] at hafter
          injection hafter with h
          exact absurd h hsne
      · subst hxe
        unfold ackSet
        refine List.mem_append.mpr (Or.inl ?_)
        rw [if_pos (List.isEmpty_iff.mpr hre)]
        simp
  · rw [hl]
    unfold sortMIds
    haveI h1 : IsTotal String (fun a b =>
        ((mset t.messageIndex mId t.length).lookup a).getD 0 ≤
        ((mset t.messageIndex mId t.length).lookup b).getD 0) :=
      ⟨fun a b => Nat.le_total _ _⟩
    haveI h2 : IsTrans String (fun a b =>
        ((mset t.messageIndex mId t.length).lookup a).getD 0 ≤
        ((mset t.messageIndex mId t.length).lookup b).getD 0) :=
      ⟨fun a b c hab hbc => Nat.le_trans hab hbc⟩
    exact List.sorted_insertionSort (fun a b =>
        ((mset t.messageIndex mId t.length).lookup a).getD 0 ≤
        ((mset t.messageIndex mId t.length).lookup b).getD 0)
      (ackSet t msg mId uId)
  · intro hre hmem
    rw [hmem_iff mId] at hmem
    unfold ackSet at hmem
    rcases List.mem_append.mp hmem with hmem | hmem
    · rw [if_neg (by simpa [List.isEmpty_iff] using hre)] at hmem
      simp at hmem
    · exact hnanc (List.mem_filter.mp hmem).1

/-- C4 counterexample: a message with an empty reader set is accepted
and returned as newly fully-acked itself — the returned list contains
`msg.mId`, an id that was not accepted before the call. -/
theorem claim_C4_counterexample :
    (Transcript.empty.add ⟨some "z1", some "A", [], []⟩).2 =
      Except.ok ["z1"] ∧
    Transcript.empty.msg? "z1" = none :=
  ⟨rfl, rfl⟩

/-- Witness for the amended C4 on a concrete transcript: adding `m3` by
A (parent `m2`, read by B) fully acks `m2`. -/
theorem claim_C4_witness :
    "m2" ∈ ["m2"] ↔
      (((tW.msg? "m2").isSome ∧
        (∃ s, tW.unackby.lookup "m2" = some s ∧ s ≠ []) ∧
        ((tW.add ⟨some "m3", some "A", ["m2"], ["B"]⟩).1.unackby.lookup "m2" =
          some []))
       ∨ (("m2" : String) = "m3" ∧ (["B"] : List String) = [])) :=
  (claim_C4_amended_acked_characterisation tW
    ⟨some "m3", some "A", ["m2"], ["B"]⟩ reachable_tW ["m2"] rfl "m3" "A"
    rfl rfl).1 "m2"

/-- Lexicographic comparison of strings by character code, the order
the JavaScript default `Array.sort()` applies to the member id strings
in `_computeSid`. -/
def strLeb : List Char → List Char → Bool
  | [], _ => true
  | _ :: _, [] => false
  | x :: xs, y :: ys =>
    if x.toNat < y.toNat then true
    else if y.toNat < x.toNat then false
    else strLeb xs ys

def sLe (a b : String) : Prop := strLeb a.data b.data = true

instance : DecidableRel sLe := fun a b => by unfold sLe; infer_instance

theorem strLeb_total : ∀ a b, strLeb a b = true ∨ strLeb b a = true := by
  intro a
  induction a with
  | nil => intro b; left; rfl
  | cons x xs ih =>
    intro b
    cases b with
    | nil => right; rfl
    | cons y ys =>
      by_cases h1 : x.toNat < y.toNat
      · left; unfold strLeb; rw [if_pos h1]
      · by_cases h2 : y.toNat < x.toNat
        · right; unfold strLeb; rw [if_pos h2]
        · rcases ih ys with h | h
          · left; unfold strLeb; rw [if_neg h1, if_neg h2]; exact h
          · right; unfold strLeb; rw [if_neg h2, if_neg h1]; exact h

theorem strLeb_trans : ∀ a b c, strLeb a b = true → strLeb b c = true →
    strLeb a c = true := by
  intro a
  induction a with
  | nil => intro b c _ _; rfl
  | cons x xs ih =>
    intro b c hab hbc
    cases b with
    | nil => exact absurd hab (by simp [strLeb])
    | cons y ys =>
      cases c with
      | nil => exact absurd hbc (by simp [strLeb])
      | cons z zs =>
        unfold strLeb at hab hbc ⊢
        by_cases hxy : x.toNat < y.toNat
        · rw [if_pos hxy] at hab
          by_cases hyz : y.toNat < z.toNat
          · rw [if_pos (by omega : x.toNat < z.toNat)]
          · by_cases hzy : z.toNat < y.toNat
            · rw [if_neg hyz, if_pos hzy] at hbc
              exact absurd hbc (by simp)
            · rw [if_pos (by omega : x.toNat < z.toNat)]
        · by_cases hyx : y.toNat < x.toNat
          · rw [if_neg hxy, if_pos hyx] at hab
            exact absurd hab (by simp)
          · rw [if_neg hxy, if_neg hyx] at hab
            by_cases hyz : y.toNat < z.toNat
            · rw [if_pos (by omega : x.toNat < z.toNat)]
            · by_cases hzy : z.toNat < y.toNat
              · rw [if_neg hyz, if_pos hzy] at hbc
                exact absurd hbc (by simp)
              · rw [if_neg hyz, if_neg hzy] at hbc
                rw [if_neg (by omega : ¬x.toNat < z.toNat),
                  if_neg (by omega : ¬z.toNat < x.toNat)]
                exact ih ys zs hab hbc

theorem strLeb_antisymm : ∀ a b, strLeb a b = true → strLeb b a = true →
    a = b := by
  intro a
  induction a with
  | nil =>
    intro b _ hba
    cases b with
    | nil => rfl
    | cons y ys => exact absurd hba (by simp [strLeb])
  | cons x xs ih =>
    intro b hab hba
    cases b with
    | nil => exact absurd hab (by simp [strLeb])
    | cons y ys =>
      unfold strLeb at hab hba
      by_cases hxy : x.toNat < y.toNat
      · rw [if_neg (by omega : ¬y.toNat < x.toNat), if_pos hxy] at hba
        exact absurd hba (by simp)
      · by_cases hyx : y.toNat < x.toNat
        · rw [if_neg hxy, if_pos hyx] at hab
          exact absurd hab (by simp)
        · rw [if_neg hxy, if_neg hyx] at hab
          rw [if_neg hyx, if_neg hxy] at hba
          have h3 : x.toNat = y.toNat := by omega
          have hxc : x = y := Char.ext (UInt32.toNat.inj h3)
          rw [hxc, ih ys hab hba]

instance : IsTotal String sLe := ⟨fun a b => strLeb_total a.data b.data⟩

instance : IsTrans String sLe :=
  ⟨fun a b c => strLeb_trans a.data b.data c.data⟩

instance : IsAntisymm String sLe :=
  ⟨fun a b hab hba => String.ext (strLeb_antisymm a.data b.data hab hba)⟩

/-- The crypto capability: the external primitives `ske.js` calls
(SHA-256, Ed25519 public-key derivation via `djbec`, and the RSA
sign/verify construction of `_smallrsasign`/`_smallrsaverify`).  They
live outside the modelled core (§4.A of the spec), so the model takes
them as parameters. -/
structure CryptoOps where
  sha256 : String → String
  publickey : String → String
  rsasign : String → String → String
  rsaverify : String → String → String

/-- JavaScript truthiness of a nullable string: `null` and `""` are
falsy. -/
def truthy : Option String → Bool
  | none => false
  | some s => !(s == "")

/-- Modelled from the spec: `mpenc.utils._noDuplicatesInList` (the file
`src/utils.js` is not part of the sources): true iff the list has no
duplicate entries. -/
def noDuplicatesInList : List String → Bool
  | [] => true
  | x :: xs => !(xs.contains x) && noDuplicatesInList xs

/-- The value the member→nonce object of `_computeSid` holds at a key:
JavaScript assignment in a loop keeps the last write. -/
def lookupLast (l : List (String × String)) (k : String) : Option String :=
  l.foldl (fun acc e => if e.1 == k then some e.2 else acc) none

/-- `mpenc.ske._computeSid`: fill `mapping[members[i]] = nonces[i]`,
sort the member ids, then concatenate the sorted non-empty pids and
their mapped nonces in that order, and hash.  A pid whose mapping entry
is missing (`undefined` in JavaScript, e.g. when `nonces` is shorter)
concatenates as the text `"undefined"`. -/
def computeSid (crypto : CryptoOps) (members nonces : List String) : String :=
  let mapping := members.zip nonces
  let sortedMembers := List.insertionSort sLe members
  let items := sortedMembers.foldl
    (fun acc pid =>
      if pid = "" then acc
      else (acc.1 ++ pid, acc.2 ++ ((lookupLast mapping pid).getD "undefined")))
    ("", "")
  crypto.sha256 (items.1 ++ items.2)

/-- `SignatureKeyExchangeMessage`. -/
structure SKEMessage where
  source : String
  dest : String
  flow : String
  members : List String
  nonces : List String
  pubKeys : List String
  sessionSignature : Option String
deriving DecidableEq, Repr

/-- `SignatureKeyExchangeMember` state; the crypto capability and the
fresh randomness are passed explicitly where the source draws them. -/
structure SKEMember where
  id : String
  members : List String
  authenticatedMembers : Option (List Bool)
  ephemeralPrivKey : Option String
  ephemeralPubKey : Option String
  nonce : Option String
  nonces : Option (List String)
  ephemeralPubKeys : Option (List String)
  sessionId : Option String
  staticPrivKey : Option String
  staticPubKeyDir : List (String × String)
  oldEphemeralKeys : List (String × (Option String × Bool))
deriving DecidableEq, Repr

/-- `_computeSessionSig`: hash `id ++ ephemeralPubKey ++ nonce ++
sessionId` and RSA-sign it with the static private key.  The `_assert`
guards become errors; a `null` nonce concatenates as the text `"null"`
as JavaScript string coercion does; a `null` static key would crash the
RSA primitive, which also becomes an error. -/
def computeSessionSig (crypto : CryptoOps) (st : SKEMember) :
    Except String String :=
  if !(truthy st.sessionId) then .error "Session ID not available."
  else if !(truthy st.ephemeralPubKey) then
    .error "No ephemeral key pair available."
  else
    match st.staticPrivKey with
    | none => .error "TypeError: staticPrivKey is null"
    | some key =>
      .ok (crypto.rsasign
        (crypto.sha256 (st.id ++ (st.ephemeralPubKey.getD "") ++
          (st.nonce.getD "null") ++ (st.sessionId.getD "")))
        key)

/-- `_verifySessionSig`: check the `_assert` guards, then compare the
RSA-recovered value with the hash of the reconstructed session-ack
bytes for the member's positional slot. -/
def verifySessionSig (crypto : CryptoOps) (st : SKEMember)
    (memberId : String) (signature : Option String) : Except String Bool :=
  if !(truthy st.sessionId) then .error "Session ID not available."
  else if !(st.members.contains memberId) then
    .error "Member not in participants list."
  else
    let memberPos := st.members.indexOf memberId
    let ephPub := (st.ephemeralPubKeys.getD []).getD memberPos ""
    if ephPub == "" then .error "Member's ephemeral pub key missing."
    else
      match st.staticPubKeyDir.lookup memberId with
      | none => .error "Member's static pub key missing."
      | some pubkey =>
        match signature with
        | none => .error "TypeError: signature is null"
        | some sig =>
          let decrypted := crypto.rsaverify sig pubkey
          let sessionAck := memberId ++ ephPub ++
            ((st.nonces.getD []).getD memberPos "undefined") ++
            (st.sessionId.getD "")
          .ok (decrypted == crypto.sha256 sessionAck)

/-- The member state after the upflow mutations shared by both branches:
clone the positional arrays from the message and append the fresh nonce
and ephemeral key pair. -/
def upflowMidState (crypto : CryptoOps) (st : SKEMember)
    (freshNonce freshPriv : String) (message : SKEMessage) : SKEMember :=
  { st with
    members := message.members
    nonces := some (message.nonces ++ [freshNonce])
    ephemeralPubKeys := some (message.pubKeys ++ [crypto.publickey freshPriv])
    nonce := some freshNonce
    ephemeralPrivKey := some freshPriv
    ephemeralPubKey := some (crypto.publickey freshPriv) }

/-- The member state when self is the last member of the upflow chain:
additionally derive the session id and initialise the authentication
flags with only self's slot true. -/
def upflowLastState (crypto : CryptoOps) (st : SKEMember)
    (freshNonce freshPriv : String) (message : SKEMessage) : SKEMember :=
  { upflowMidState crypto st freshNonce freshPriv message with
    sessionId := some (computeSid crypto message.members
      (message.nonces ++ [freshNonce]))
    authenticatedMembers := some ((List.replicate message.members.length
      false).set (message.members.indexOf st.id) true) }

/-- `SignatureKeyExchangeMember.upflow`.  The pair carries the member
state the caller holds afterwards together with the produced message or
the thrown error; every `_assert` fires before any state is touched. -/
def upflow (crypto : CryptoOps) (st : SKEMember)
    (freshNonce freshPriv : String) (message : SKEMessage) :
    SKEMember × Except String SKEMessage :=
  if !(noDuplicatesInList message.members) then
    (st, .error "Duplicates in member list detected!")
  else if message.members.length < message.nonces.length then
    (st, .error "Too many nonces on ASKE upflow!")
  else if message.members.length < message.pubKeys.length then
    (st, .error "Too many pub keys on ASKE upflow!")
  else if !(message.members.contains st.id) then
    (st, .error "Not member of this key exchange!")
  else
    let myPos := message.members.indexOf st.id
    let nonces' := message.nonces ++ [freshNonce]
    let pubKeys' := message.pubKeys ++ [crypto.publickey freshPriv]
    if myPos = message.members.length - 1 then
      let st₂ := upflowLastState crypto st freshNonce freshPriv message
      match computeSessionSig crypto st₂ with
      | .error e => (st₂, .error e)
      | .ok sig =>
        (st₂, .ok { message with
          source := st.id
          dest := ""
          flow := "downflow"
          sessionSignature := some sig
          nonces := nonces'
          pubKeys := pubKeys' })
    else
      (upflowMidState crypto st freshNonce freshPriv message,
       .ok { message with
        source := st.id
        dest := message.members.getD (myPos + 1) ""
        nonces := nonces'
        pubKeys := pubKeys' })

/-- The state `downflow` holds after adopting a new session from the
message, before any authentication check. -/
def downflowAdoptState (crypto : CryptoOps) (st : SKEMember)
    (message : SKEMessage) : SKEMember :=
  { st with
    members := message.members
    nonces := some message.nonces
    ephemeralPubKeys := some message.pubKeys
    sessionId := some (computeSid crypto message.members message.nonces)
    authenticatedMembers :=
      some ((List.replicate message.members.length false).set
        (message.members.indexOf st.id) true) }

/-- The member state `downflow` ends in when it adopts a new session and
the sender's signature verifies: the adopted state with the sender's
authentication slot also set. -/
def downflowNewState (crypto : CryptoOps) (st : SKEMember)
    (message : SKEMessage) : SKEMember :=
  { downflowAdoptState crypto st message with
    authenticatedMembers := some
      (((List.replicate message.members.length false).set
        (message.members.indexOf st.id) true).set
        (message.members.indexOf message.source) true) }

/-- `SignatureKeyExchangeMember.downflow`.  The pair carries the member
state the caller holds afterwards (possibly already mutated by the
new-session adoption) together with the result — `some` reply, `none`
when this member has already broadcast its acknowledgement — or the
thrown error.  The source computes the post-adoption state once and
shares the verification tail between the two cases; the two branches
here are that shared tail specialised to each case.  In the new-session
branch the authentication list exists by construction, so the source's
crash on a `null` list can only fire in the existing-session branch. -/
def downflow (crypto : CryptoOps) (st : SKEMember) (message : SKEMessage) :
    SKEMember × Except String (Option SKEMessage) :=
  if !(noDuplicatesInList message.members) then
    (st, .error "Duplicates in member list detected!")
  else if st.sessionId == some (computeSid crypto message.members
      message.nonces) then
    match verifySessionSig crypto st message.source message.sessionSignature with
    | .error e => (st, .error e)
    | .ok isValid =>
      if !isValid then (st, .error "Authentication of member failed: ")
      else
        match st.authenticatedMembers with
        | none => (st, .error "TypeError: authenticatedMembers is null")
        | some auth =>
          ({ st with authenticatedMembers := some (auth.set
              (message.members.indexOf message.source) true) },
           .ok none)
  else
    let st₁ := downflowAdoptState crypto st message
    match verifySessionSig crypto st₁ message.source message.sessionSignature with
    | .error e => (st₁, .error e)
    | .ok isValid =>
      if !isValid then (st₁, .error "Authentication of member failed: ")
      else
        let st₂ := downflowNewState crypto st message
        match computeSessionSig crypto st₂ with
        | .error e => (st₂, .error e)
        | .ok sig =>
          (st₂, .ok (some { message with
            source := st.id
            sessionSignature := some sig }))

theorem lookupLast_acc (k : String) (l : List (String × String)) :
    ∀ acc, l.foldl (fun a e => if e.1 == k then some e.2 else a) acc =
      ((lookupLast l k).elim acc some) := by
  induction l with
  | nil => intro acc; rfl
  | cons e rest ih =>
    intro acc
    unfold lookupLast
    rw [List.foldl_cons, List.foldl_cons, ih, ih]
    cases h : lookupLast rest k with
    | some v => simp
    | none =>
      by_cases he : (e.1 == k) = true
      · rw [if_pos he, if_pos he]; simp
      · rw [if_neg he, if_neg he]; simp

theorem lookupLast_cons (k : String) (e : String × String)
    (rest : List (String × String)) :
    lookupLast (e :: rest) k =
      ((lookupLast rest k).elim (if e.1 == k then some e.2 else none) some) := by
  show List.foldl _ (if e.1 == k then some e.2 else none) rest = _
  rw [lookupLast_acc]

theorem lookupLast_some_mem (l : List (String × String)) (k v : String)
    (h : lookupLast l k = some v) : (k, v) ∈ l := by
  induction l with
  | nil => simp [lookupLast] at h
  | cons e rest ih =>
    rw [lookupLast_cons] at h
    cases h2 : lookupLast rest k with
    | some v' =>
      rw [h2] at h
      simp at h
      rw [h] at h2
      exact List.mem_cons_of_mem _ (ih h2)
    | none =>
      rw [h2] at h
      simp only [Option.elim_none] at h
      by_cases he : (e.1 == k) = true
      · rw [if_pos he] at h
        injection h with h
        have he2 : e = (k, v) := by
          obtain ⟨e1, e2⟩ := e
          simp at he h
          rw [he, h]
        rw [← he2]
        exact List.mem_cons_self _ _
      · rw [if_neg he] at h
        exact absurd h (by simp)

theorem lookupLast_none_iff (l : List (String × String)) (k : String) :
    lookupLast l k = none ↔ ∀ e ∈ l, e.1 ≠ k := by
  induction l with
  | nil => simp [lookupLast]
  | cons e rest ih =>
    rw [lookupLast_cons]
    cases h : lookupLast rest k with
    | some v =>
      simp only [Option.elim_some]
      constructor
      · intro hcontra; exact absurd hcontra (by simp)
      · intro hall
        have := lookupLast_some_mem rest k v h
        exact absurd rfl (hall (k, v) (List.mem_cons_of_mem _ this))
    | none =>
      rw [ih] at h
      simp only [Option.elim_none]
      by_cases he : (e.1 == k) = true
      · rw [if_pos he]
        simp only [reduceCtorEq, false_iff, not_forall]
        exact ⟨e, List.mem_cons_self _ _, by simpa using he⟩
      · rw [if_neg he]
        simp only [true_iff]
        intro e' he'
        rcases List.mem_cons.mp he' with rfl | he''
        · simpa using he
        · exact h e' he''

theorem lookupLast_of_mem_nodup (l : List (String × String))
    (hnd : (l.map Prod.fst).Nodup) (k v : String) (hmem : (k, v) ∈ l) :
    lookupLast l k = some v := by
  induction l with
  | nil => simp at hmem
  | cons e rest ih =>
    rw [lookupLast_cons]
    rw [List.map_cons, List.nodup_cons] at hnd
    rcases List.mem_cons.mp hmem with rfl | hmem2
    · have hnd1 : k ∉ List.map Prod.fst rest := by simpa using hnd.1
      have hrest : lookupLast rest k = none := by
        rw [lookupLast_none_iff]
        intro e2 he2 hek
        exact hnd1 (hek ▸ List.mem_map_of_mem Prod.fst he2)
      rw [hrest]
      simp
    · rw [ih hnd.2 hmem2]
      simp

theorem lookupLast_perm (l l' : List (String × String)) (hperm : l.Perm l')
    (hnd : (l.map Prod.fst).Nodup) (k : String) :
    lookupLast l' k = lookupLast l k := by
  have hnd' : (l'.map Prod.fst).Nodup := ((hperm.map Prod.fst).nodup) hnd
  cases h : lookupLast l k with
  | some v =>
    exact lookupLast_of_mem_nodup l' hnd' k v
      (hperm.mem_iff.mp (lookupLast_some_mem l k v h))
  | none =>
    rw [lookupLast_none_iff] at h ⊢
    intro e he
    exact h e (hperm.mem_iff.mpr he)

/-- The session-id derivation as §4.B of the spec words it: sort the
member ids, skip empty ones, concatenate the sorted pids and then their
nonces taken in the same sorted order (the nonce of a pid is the one at
its position in the input), and hash. -/
def sidSpec (crypto : CryptoOps) (members nonces : List String) : String :=
  let sorted := (List.insertionSort sLe members).filter (fun pid => !(pid == ""))
  crypto.sha256
    ((sorted.foldl (fun a pid => a ++ pid) "") ++
     (sorted.foldl
       (fun a pid => a ++ (nonces.getD (members.indexOf pid) "undefined")) ""))

theorem sid_fold_split (mapping : List (String × String)) :
    ∀ (l : List String) (acc : String × String),
      l.foldl
        (fun acc pid =>
          if pid = "" then acc
          else (acc.1 ++ pid,
            acc.2 ++ ((lookupLast mapping pid).getD "undefined"))) acc =
      ((l.filter (fun pid => !(pid == ""))).foldl (fun a pid => a ++ pid) acc.1,
       (l.filter (fun pid => !(pid == ""))).foldl
         (fun a pid => a ++ ((lookupLast mapping pid).getD "undefined"))
         acc.2) := by
  intro l
  induction l with
  | nil => intro acc; rfl
  | cons x xs ih =>
    intro acc
    rw [List.foldl_cons]
    by_cases hx : x = ""
    · rw [if_pos hx, ih]
      have hf : (x :: xs).filter (fun pid => !(pid == "")) =
          xs.filter (fun pid => !(pid == "")) := by
        rw [List.filter_cons]
        simp [hx]
      rw [hf]
    · rw [if_neg hx, ih]
      have hf : (x :: xs).filter (fun pid => !(pid == "")) =
          x :: xs.filter (fun pid => !(pid == "")) := by
        rw [List.filter_cons]
        simp [hx]
      rw [hf, List.foldl_cons, List.foldl_cons]

/-- C6: for pairwise-distinct member ids and equally many nonces,
`_computeSid` hashes the concatenation of the lexicographically sorted
non-empty member ids followed by their nonces in that same sorted
order, and is invariant under any permutation of the (member, nonce)
pairs. -/
theorem claim_C6_computeSid_sorted_and_permutation_invariant
    (crypto : CryptoOps) (members nonces : List String)
    (hnd : members.Nodup) (hlen : members.length = nonces.length) :
    computeSid crypto members nonces = sidSpec crypto members nonces ∧
    (∀ members' nonces' : List String, members'.length = nonces'.length →
      (members'.zip nonces').Perm (members.zip nonces) →
      computeSid crypto members' nonces' = computeSid crypto members nonces) := by
  have hkeys : (members.zip nonces).map Prod.fst = members :=
    List.map_fst_zip _ _ (le_of_eq hlen)
  have hkeysnd : ((members.zip nonces).map Prod.fst).Nodup := by
    rw [hkeys]; exact hnd
  constructor
  · unfold computeSid sidSpec
    simp only []
    rw [sid_fold_split (members.zip nonces) (List.insertionSort sLe members)
      ("", "")]
    refine congrArg crypto.sha256 ?_
    refine congrArg (_ ++ ·) ?_
    refine List.foldl_ext _ _ _ ?_
    intro a pid hpid
    have hpm : pid ∈ members := by
      have := (List.mem_filter.mp hpid).1
      exact (List.perm_insertionSort sLe members).mem_iff.mp this
    have hidx : members.indexOf pid < members.length :=
      List.indexOf_lt_length.mpr hpm
    have hidx2 : members.indexOf pid < nonces.length := by omega
    have hzidx : members.indexOf pid < (members.zip nonces).length := by
      rw [List.length_zip]
      omega
    have hmem : (pid, nonces[members.indexOf pid]) ∈ members.zip nonces := by
      have hz : (members.zip nonces)[members.indexOf pid] =
          (members[members.indexOf pid], nonces[members.indexOf pid]) :=
        List.getElem_zip
      rw [List.getElem_indexOf hidx] at hz
      rw [← hz]
      exact List.getElem_mem hzidx
    rw [lookupLast_of_mem_nodup _ hkeysnd _ _ hmem]
    rw [List.getD_eq_getElem nonces "undefined" hidx2]
    rfl
  · intro members' nonces' hlen' hperm
    have hkeys' : (members'.zip nonces').map Prod.fst = members' :=
      List.map_fst_zip _ _ (le_of_eq hlen')
    have hpm : members'.Perm members := by
      have h := hperm.map Prod.fst
      rw [hkeys, hkeys'] at h
      exact h
    have hsorted : List.insertionSort sLe members' =
        List.insertionSort sLe members :=
      List.eq_of_perm_of_sorted
        ((List.perm_insertionSort sLe members').trans
          (hpm.trans (List.perm_insertionSort sLe members).symm))
        (List.sorted_insertionSort sLe members')
        (List.sorted_insertionSort sLe members)
    have hlk : ∀ pid, lookupLast (members'.zip nonces') pid =
        lookupLast (members.zip nonces) pid := by
      intro pid
      exact lookupLast_perm _ _ hperm.symm hkeysnd pid
    unfold computeSid
    simp only []
    rw [hsorted]
    refine congrArg crypto.sha256 ?_
    have hfold : (List.insertionSort sLe members).foldl
        (fun acc pid =>
          if pid = "" then acc
          else (acc.1 ++ pid,
            acc.2 ++ ((lookupLast (members'.zip nonces') pid).getD "undefined")))
        ("", "") =
        (List.insertionSort sLe members).foldl
        (fun acc pid =>
          if pid = "" then acc
          else (acc.1 ++ pid,
            acc.2 ++ ((lookupLast (members.zip nonces) pid).getD "undefined")))
        ("", "") := by
      refine List.foldl_ext _ _ _ ?_
      intro a pid _
      rw [hlk pid]
    rw [hfold]

/-- A concrete crypto capability for witnesses: tagging functions whose
outputs are readable string encodings of their inputs. -/
def cryptoW : CryptoOps :=
  ⟨fun s => "#" ++ s, fun s => "P" ++ s, fun m k => "S" ++ k ++ m,
   fun sig _ => sig⟩

/-- Witness for C6 at a concrete input: two members given unsorted. -/
theorem claim_C6_witness :
    computeSid cryptoW ["B", "A"] ["nB", "nA"] =
      sidSpec cryptoW ["B", "A"] ["nB", "nA"] ∧
    (∀ members' nonces' : List String, members'.length = nonces'.length →
      (members'.zip nonces').Perm (["B", "A"].zip ["nB", "nA"]) →
      computeSid cryptoW members' nonces' =
        computeSid cryptoW ["B", "A"] ["nB", "nA"]) :=
  claim_C6_computeSid_sorted_and_permutation_invariant cryptoW
    ["B", "A"] ["nB", "nA"] (by decide) rfl

/-- C7: under the upflow preconditions, the returned message carries the
input's nonces and pubKeys with exactly one fresh entry appended to
each, and `source` set to self; when self is the last member, the flow
turns to downflow with empty `dest`, a session signature, and the
authentication flags all false except self's; otherwise the message is
addressed to the next member in line. -/
theorem claim_C7_upflow_appends_and_routes (crypto : CryptoOps)
    (st : SKEMember) (freshNonce freshPriv : String) (message : SKEMessage)
    (hnd : noDuplicatesInList message.members = true)
    (hn : message.nonces.length ≤ message.members.length)
    (hp : message.pubKeys.length ≤ message.members.length)
    (hself : message.members.contains st.id = true) :
    (message.members.indexOf st.id ≠ message.members.length - 1 →
      upflow crypto st freshNonce freshPriv message =
        (upflowMidState crypto st freshNonce freshPriv message,
         Except.ok { message with
            source := st.id
            dest := message.members.getD (message.members.indexOf st.id + 1) ""
            nonces := message.nonces ++ [freshNonce]
            pubKeys := message.pubKeys ++ [crypto.publickey freshPriv] })) ∧
    (message.members.indexOf st.id = message.members.length - 1 →
      (upflowLastState crypto st freshNonce freshPriv
          message).authenticatedMembers =
        some ((List.replicate message.members.length false).set
          (message.members.indexOf st.id) true) ∧
      ∀ sig, computeSessionSig crypto
          (upflowLastState crypto st freshNonce freshPriv message) =
            Except.ok sig →
        upflow crypto st freshNonce freshPriv message =
          (upflowLastState crypto st freshNonce freshPriv message,
           Except.ok { message with
              source := st.id
              dest := ""
              flow := "downflow"
              sessionSignature := some sig
              nonces := message.nonces ++ [freshNonce]
              pubKeys := message.pubKeys ++ [crypto.publickey freshPriv] })) ∧
    (message.nonces ++ [freshNonce]).length = message.nonces.length + 1 ∧
    (message.pubKeys ++ [crypto.publickey freshPriv]).length =
      message.pubKeys.length + 1 := by
  have hred : ∀ r : SKEMember × Except String SKEMessage,
      upflow crypto st freshNonce freshPriv message = r ↔
      (if message.members.indexOf st.id = message.members.length - 1 then
        match computeSessionSig crypto
            (upflowLastState crypto st freshNonce freshPriv message) with
        | .error e =>
          (upflowLastState crypto st freshNonce freshPriv message, .error e)
        | .ok sig =>
          (upflowLastState crypto st freshNonce freshPriv message,
           .ok { message with
            source := st.id
            dest := ""
            flow := "downflow"
            sessionSignature := some sig
            nonces := message.nonces ++ [freshNonce]
            pubKeys := message.pubKeys ++ [crypto.publickey freshPriv] })
      else
        (upflowMidState crypto st freshNonce freshPriv message,
         .ok { message with
          source := st.id
          dest := message.members.getD (message.members.indexOf st.id + 1) ""
          nonces := message.nonces ++ [freshNonce]
          pubKeys := message.pubKeys ++ [crypto.publickey freshPriv] })) = r := by
    intro r
    unfold upflow
    rw [hnd, hself]
    simp only [Bool.not_true, Bool.false_eq_true, if_false,
      if_neg (by omega : ¬message.members.length < message.nonces.length),
      if_neg (by omega : ¬message.members.length < message.pubKeys.length)]
  refine ⟨?_, ?_, by simp, by simp⟩
  · intro hnl
    rw [hred]
    rw [if_neg hnl]
  · intro hl
    refine ⟨rfl, ?_⟩
    intro sig hsig
    rw [hred]
    rw [if_pos hl, hsig]

/-- Witness for C7: a concrete two-member upflow, exercised at the
non-last member (the last-member branch's conjunct is obtained at the
same input). -/
theorem claim_C7_witness :
    upflow cryptoW
      ⟨"A", [], none, none, none, none, none, none, none, some "KA", [], []⟩
      "nA" "kA" ⟨"A", "", "upflow", ["A", "B"], [], [], none⟩ =
      (upflowMidState cryptoW
        ⟨"A", [], none, none, none, none, none, none, none, some "KA", [], []⟩
        "nA" "kA" ⟨"A", "", "upflow", ["A", "B"], [], [], none⟩,
       Except.ok ⟨"A", "B", "upflow", ["A", "B"], ["nA"], ["PkA"], none⟩) :=
  (claim_C7_upflow_appends_and_routes cryptoW
    ⟨"A", [], none, none, none, none, none, none, none, some "KA", [], []⟩
    "nA" "kA" ⟨"A", "", "upflow", ["A", "B"], [], [], none⟩
    (by decide) (by decide) (by decide) (by decide)).1 (by decide)

/-- C8: a downflow for the current session only marks the sender
authenticated and returns `none`; a downflow for a new session adopts
the message's members, nonces, pubKeys and session id, resets the
authentication flags with self and the sender true, and returns a copy
of the message with `source` set to self and the member's own session
signature. -/
theorem claim_C8_downflow_existing_and_new_session (crypto : CryptoOps)
    (st : SKEMember) (message : SKEMessage)
    (hnd : noDuplicatesInList message.members = true) :
    (∀ auth, st.sessionId =
        some (computeSid crypto message.members message.nonces) →
      st.authenticatedMembers = some auth →
      verifySessionSig crypto st message.source message.sessionSignature =
        Except.ok true →
      downflow crypto st message =
        ({ st with authenticatedMembers := some (auth.set (message.members.indexOf message.source) true) },
         Except.ok none)) ∧
    (st.sessionId ≠ some (computeSid crypto message.members message.nonces) →
      verifySessionSig crypto (downflowAdoptState crypto st message)
          message.source message.sessionSignature = Except.ok true →
      ∀ sig, computeSessionSig crypto (downflowNewState crypto st message) =
          Except.ok sig →
      downflow crypto st message =
        (downflowNewState crypto st message,
         Except.ok (some { message with
            source := st.id
            sessionSignature := some sig }))) := by
  constructor
  · intro auth hex hauth hverify
    unfold downflow
    rw [hnd]
    simp only [Bool.not_true, Bool.false_eq_true, if_false]
    rw [show (st.sessionId ==
        some (computeSid crypto message.members message.nonces)) = true from
      by simp [hex]]
    simp only [if_true]
    rw [hverify]
    simp only [Bool.not_true, Bool.false_eq_true, if_false]
    rw [hauth]
  · intro hne hverify sig hsig
    unfold downflow
    rw [hnd]
    simp only [Bool.not_true, Bool.false_eq_true, if_false]
    rw [show (st.sessionId ==
        some (computeSid crypto message.members message.nonces)) = false from
      by simp [hne]]
    simp only [Bool.false_eq_true, if_false]
    rw [hverify]
    simp only []
    rw [hsig]
    rfl

/-- C10 (implicit): when a downflow message for a *new* session fails
the sender's signature check, the error is raised only after the member
has already adopted the rejected session: the post-error state carries
the message's members, nonces, pubKeys and session id, and the reset
authentication flags with only the member's own slot true — the
adoption is not rolled back. -/
theorem claim_C10_downflow_not_atomic_on_auth_failure (crypto : CryptoOps)
    (st : SKEMember) (message : SKEMessage)
    (hnd : noDuplicatesInList message.members = true)
    (_hself : message.members.contains st.id = true)
    (hne : st.sessionId ≠ some (computeSid crypto message.members message.nonces))
    (hv : verifySessionSig crypto (downflowAdoptState crypto st message)
        message.source message.sessionSignature = Except.ok false) :
    downflow crypto st message =
      (downflowAdoptState crypto st message,
       Except.error "Authentication of member failed: ") ∧
    (downflowAdoptState crypto st message).sessionId =
      some (computeSid crypto message.members message.nonces) ∧
    (downflowAdoptState crypto st message).members = message.members ∧
    (downflowAdoptState crypto st message).nonces = some message.nonces ∧
    (downflowAdoptState crypto st message).ephemeralPubKeys =
      some message.pubKeys ∧
    (downflowAdoptState crypto st message).authenticatedMembers =
      some ((List.replicate message.members.length false).set
        (message.members.indexOf st.id) true) := by
  refine ⟨?_, rfl, rfl, rfl, rfl, rfl⟩
  unfold downflow
  rw [hnd]
  simp only [Bool.not_true, Bool.false_eq_true, if_false]
  rw [show (st.sessionId ==
      some (computeSid crypto message.members message.nonces)) = false from
    by simp [hne]]
  simp only [Bool.false_eq_true, if_false]
  rw [hv]
  rfl

/-- A concrete member state for the downflow witnesses: B, after its
upflow step, before learning the session id. -/
def stB : SKEMember :=
  ⟨"B", ["A", "B"], some [false, false], some "kB", some "PkB", some "nB",
   some ["nA", "nB"], some ["PkA", "PkB"], none, some "KB", [("A", "RA")], []⟩

/-- A concrete downflow broadcast from A with a signature that verifies
under `cryptoW`. -/
def msgD : SKEMessage :=
  ⟨"A", "", "downflow", ["A", "B"], ["nA", "nB"], ["PkA", "PkB"],
   some "#APkAnA#ABnAnB"⟩

/-- Witness for C8: B adopts the new session broadcast by A and returns
its own acknowledgement. -/
theorem claim_C8_witness :
    downflow cryptoW stB msgD =
      (downflowNewState cryptoW stB msgD,
       Except.ok (some { msgD with
          source := "B"
          sessionSignature := some "SKB#BPkBnB#ABnAnB" })) :=
  (claim_C8_downflow_existing_and_new_session cryptoW stB msgD rfl).2
    (by decide) rfl "SKB#BPkBnB#ABnAnB" rfl

/-- The same downflow broadcast with a corrupted signature. -/
def msgDbad : SKEMessage :=
  ⟨"A", "", "downflow", ["A", "B"], ["nA", "nB"], ["PkA", "PkB"],
   some "WRONG"⟩

/-- Witness for C10: the corrupted broadcast raises an authentication
error, yet B's state already carries the rejected session. -/
theorem claim_C10_witness :
    downflow cryptoW stB msgDbad =
      (downflowAdoptState cryptoW stB msgDbad,
       Except.error "Authentication of member failed: ") ∧
    (downflowAdoptState cryptoW stB msgDbad).sessionId =
      some (computeSid cryptoW msgDbad.members msgDbad.nonces) :=
  ⟨(claim_C10_downflow_not_atomic_on_auth_failure cryptoW stB msgDbad rfl rfl
      (by decide) rfl).1,
   (claim_C10_downflow_not_atomic_on_auth_failure cryptoW stB msgDbad rfl rfl
      (by decide) rfl).2.1⟩

/-- The `DefaultMessageLog` state the subscription path touches:
`_messageIndex` (backing `has`), `_transcriptParents` and
`_lastTranscript`.  Transcript objects are identified here by a string
id paired with their state, standing in for JavaScript object
identity. -/
structure MLog where
  messageIndex : List (String × Nat)
  transcriptParents : List (String × List String)
  lastTranscript : Option String
deriving DecidableEq, Repr

/-- Modelled from the spec: `MessageLog.resolveEarlier` (the file
`src/mpenc/transcript.js` that declares it is not part of the
sources): resolve ids to the latest earlier non-ignored ids of the
transcript — keep a non-ignored id, recurse through the parents of an
ignored one.  `ign` is the `shouldIgnore` domain predicate for this
transcript. -/
def resolveEarlierFuel (t : Transcript) (ign : String → Bool) :
    Nat → List String → List String
  | 0, _ => []
  | fuel + 1, mIds =>
    dedupKeep (mIds.foldl
      (fun acc m =>
        if ign m then
          acc ++ resolveEarlierFuel t ign fuel
            ((t.msg? m).elim [] Message.parents)
        else acc ++ [m]) [])

/-- Modelled from the spec: `MessageLog.resolveEarlier` entry point; the
transcript's size bounds the parent-chain depth on states reachable
through `add`. -/
def resolveEarlier (t : Transcript) (ign : String → Bool)
    (mIds : List String) : List String :=
  resolveEarlierFuel t ign (t.length + 1) mIds

/-- `DefaultMessageLog._resolveEarlier`: assert the transcript was
registered, resolve, fall back to the transcript's stored parents when
the resolved set is empty, and assert everything resolved is already in
the log. -/
def logResolveEarlier (ign : String → String → Bool) (log : MLog)
    (tscr : String × Transcript) (mIds : List String) :
    Except String (List String) :=
  match log.transcriptParents.lookup tscr.1 with
  | none => .error "invalid transcript: "
  | some trParents =>
    let resolved := resolveEarlier tscr.2 (ign tscr.1) mIds
    let resolved2 := if resolved.isEmpty then trParents else resolved
    if resolved2.all (fun m => (log.messageIndex.lookup m).isSome) then
      .ok resolved2
    else
      .error "resolved parents not all added to the log yet; this must be done first"

/-- `DefaultMessageLog.getSubscriberFor`, up to the point where the
subscriber closure is returned: the error behaviour and the state
updates of the subscription call itself (the returned closure is not
modelled; C9 concerns only whether this call throws).  `parents` is the
optional map from parent-message-id sets to their parent transcripts,
an association list whose first entry is the one `entries().next()`
yields. -/
def getSubscriberFor (ign : String → String → Bool) (log : MLog)
    (tscr : String × Transcript)
    (parents : Option (List (List String × (String × Transcript)))) :
    Except String MLog :=
  match parents with
  | some ps =>
    if 1 < ps.length then
      .error "DefaultMessageLog does not support transcripts with > 1 parent"
    else
      match ps.head? with
      | some pv =>
        match logResolveEarlier ign log pv.2 (dedupKeep pv.1) with
        | .error e => .error e
        | .ok payloadParents =>
          .ok { log with
            transcriptParents := mset log.transcriptParents tscr.1 payloadParents
            lastTranscript := some tscr.1 }
      | none =>
        .ok { log with
          transcriptParents := mset log.transcriptParents tscr.1 []
          lastTranscript := some tscr.1 }
  | none =>
    .ok { log with
      transcriptParents := mset log.transcriptParents tscr.1 []
      lastTranscript := some tscr.1 }

/-- C9 (corrected): subscribing with more than one parent transcript
always fails; subscribing with no parent never fails; subscribing with
exactly one parent returns without error precisely when the internal
`_resolveEarlier` call succeeds (the parent transcript was itself
registered and every resolved parent is already in the log), and
propagates its assertion error otherwise. -/
theorem claim_C9_amended_subscriber_parent_constraint
    (ign : String → String → Bool) (log : MLog)
    (tscr : String × Transcript) :
    (∀ ps, 1 < ps.length →
      getSubscriberFor ign log tscr (some ps) =
        Except.error
          "DefaultMessageLog does not support transcripts with > 1 parent") ∧
    (getSubscriberFor ign log tscr none).isOk = true ∧
    (getSubscriberFor ign log tscr (some [])).isOk = true ∧
    (∀ pv, (getSubscriberFor ign log tscr (some [pv])).isOk =
        (logResolveEarlier ign log pv.2 (dedupKeep pv.1)).isOk) := by
  refine ⟨?_, rfl, rfl, ?_⟩
  · intro ps hps
    unfold getSubscriberFor
    simp only []
    rw [if_pos hps]
  · intro pv
    unfold getSubscriberFor
    simp only []
    rw [if_neg (by simp : ¬(1 : Nat) < [pv].length)]
    simp only [List.head?]
    cases hr : logResolveEarlier ign log pv.2 (dedupKeep pv.1) with
    | error e => rfl
    | ok v => rfl

/-- C9 counterexample: with one parent whose transcript was never
itself subscribed, the call raises the `_resolveEarlier` registration
assertion instead of returning a subscriber — refuting "for zero or one
parent it returns a subscriber function without error". -/
theorem claim_C9_counterexample :
    getSubscriberFor (fun _ _ => false) ⟨[], [], none⟩
      ("T1", Transcript.empty)
      (some [(["m0"], ("T0", Transcript.empty))]) =
      Except.error "invalid transcript: " := rfl

/-- Witness for the amended C9: a log where transcript `T0` is already
registered with payload parent `m0`, subscribing `T1` with `T0` as its
single parent succeeds. -/
theorem claim_C9_witness :
    (getSubscriberFor (fun _ _ => false)
        ⟨[("m0", 0)], [("T0", ["m0"])], some "T0"⟩
        ("T1", Transcript.empty)
        (some [(["m0"], ("T0", Transcript.empty))])).isOk =
      (logResolveEarlier (fun _ _ => false)
        ⟨[("m0", 0)], [("T0", ["m0"])], some "T0"⟩
        ("T0", Transcript.empty) (dedupKeep ["m0"])).isOk :=
  (claim_C9_amended_subscriber_parent_constraint (fun _ _ => false)
    ⟨[("m0", 0)], [("T0", ["m0"])], some "T0"⟩
    ("T1", Transcript.empty)).2.2.2 (["m0"], ("T0", Transcript.empty))

end Mpenc
